import Mathlib

/-!
# skuid: on-disk layout of metadata records

A shallow embedding of `types/skuid.go` (the record type `PullResponse`, its
writer `WriteAtRest` and the reader `ReadFiles`) together with the parts of the
Go standard library the code calls: `strings.Replace`, `path/filepath`
(`Ext`, `Clean`, `Join`, `Split`, `Match`, `Glob`), a small file system for
`os.Stat`, `os.Mkdir`, `ioutil.ReadFile`, `ioutil.WriteFile`, and the
struct-tag driven object layer of `encoding/json`. The archive extractor
`writeResultsToDisk` of package `cmd`, of which only the test is at hand, is
modelled from the specification.

Go strings are modelled as lists of characters (`GoString`); the model covers
strings that are valid UTF-8, for which byte-wise and character-wise scanning
for the ASCII characters `/`, `.`, `*`, `?`, `[`, `\` agree.

The file system has no symbolic links. It lists its directories and regular
files under their cleaned names and resolves a path name as the kernel does,
element by element: every step, also over an empty element, `.` or `..`,
starts from a directory, so that `pages`, `./pages` and `pages/` name the same
node, `os.Mkdir` makes one level only, and a write below a missing directory
fails.
-/

set_option autoImplicit false
set_option maxRecDepth 100000

namespace Skuid

/-- A Go string, as the list of its characters. -/
abbrev GoString := List Char

/-! ## The record type (`types/skuid.go`, lines 16-26) -/

/-- The struct `PullResponse`. `ComposerSettings` is a `*string`: `none` is the
nil pointer. `MaxAutoSaves` is a Go `int`. -/
structure PullResponse where
  Name : GoString
  UniqueID : GoString
  Type_ : GoString
  Module : GoString
  MaxAutoSaves : Int
  MasterPageUniqueID : GoString
  IsMasterPage : Bool
  ComposerSettings : Option GoString
  Body : GoString
deriving DecidableEq, Repr

/-- The zero value `PullResponse{}`. -/
def PullResponse.zero : PullResponse :=
  { Name := [], UniqueID := [], Type_ := [], Module := [], MaxAutoSaves := 0,
    MasterPageUniqueID := [], IsMasterPage := false, ComposerSettings := none, Body := [] }

/-- The method `(*PullResponse).FileBasename` (lines 51-63): the module and an underscore
are written to the buffer only when the module is non-empty, then the name. -/
def FileBasename (page : PullResponse) : GoString :=
  let buf : GoString := []
  let buf := if page.Module ≠ [] then (buf ++ page.Module) ++ "_".toList else buf
  buf ++ page.Name

/-- The target `fmt.Sprintf("%s/%s.json", path, page.FileBasename())` of line 75. -/
def manifestPath (path : GoString) (page : PullResponse) : GoString :=
  path ++ "/".toList ++ FileBasename page ++ ".json".toList

/-- The target `fmt.Sprintf("%s/%s.xml", path, page.FileBasename())` of line 82. -/
def bodyPath (path : GoString) (page : PullResponse) : GoString :=
  path ++ "/".toList ++ FileBasename page ++ ".xml".toList

/-! ## `strings` and `path/filepath` (Unix) -/

/-- The call `strings.Replace(s, old, new, 1)`: the first occurrence of `old` in `s`,
scanning from the left, is replaced by `new`; without an occurrence `s` is
returned unchanged. -/
def stringsReplaceFirst : GoString → GoString → GoString → GoString
  | [], old, new => if old.isPrefixOf [] then new else []
  | c :: cs, old, new =>
    if old.isPrefixOf (c :: cs) then new ++ (c :: cs).drop old.length
    else c :: stringsReplaceFirst cs old new

/-- The loop of `filepath.Ext`, run over the reversed path: `acc` holds the
characters already passed, in path order. -/
def extLoop : List Char → GoString → GoString
  | [], _ => []
  | c :: rest, acc =>
    if c = '/' then []
    else if c = '.' then '.' :: acc
    else extLoop rest (c :: acc)

/-- The function `filepath.Ext`: the suffix starting at the last dot of the last path
element, or the empty string when that element has no dot. -/
def Ext (path : GoString) : GoString := extLoop path.reverse []

/-- The function `filterOutXmlFiles` (lines 107-119). -/
def filterOutXmlFiles (files : List GoString) : List GoString :=
  files.foldl
    (fun filtered path => if Ext path = ".xml".toList then filtered else filtered ++ [path])
    []

/-- Error values that the modelled library calls return. The value `notExist`
stands for the error of a path that names nothing: `ENOENT`, and also
`ENOTDIR`, which the kernel reports when the path leads through a regular
file. -/
inductive Err
  | notExist
  | exist
  | isDirectory
  | permission
  | badPattern
  | other (code : Nat)
deriving DecidableEq, Repr

instance instDecidableEqExcept {ε α : Type} [DecidableEq ε] [DecidableEq α] :
    DecidableEq (Except ε α)
  | .ok a, .ok b => if h : a = b then isTrue (by rw [h]) else isFalse (by intro h1; cases h1; exact h rfl)
  | .error a, .error b =>
    if h : a = b then isTrue (by rw [h]) else isFalse (by intro h1; cases h1; exact h rfl)
  | .ok _, .error _ => isFalse (by intro h; cases h)
  | .error _, .ok _ => isFalse (by intro h; cases h)

/-- One step of the loop of `filepath.Clean`, taken per path element: empty
and `.` elements are dropped, a `..` element removes the last emitted element
when there is one that is not itself a kept `..` (otherwise it is kept on a
relative path and dropped on a rooted one), any other element is emitted. -/
def cleanStep (rooted : Bool) (out : List GoString) (seg : GoString) : List GoString :=
  if seg = [] ∨ seg = ".".toList then out
  else if seg = "..".toList then
    match out.getLast? with
    | some l =>
      if l ≠ "..".toList then out.dropLast
      else if rooted then out else out ++ [seg]
    | none => if rooted then out else out ++ [seg]
  else out ++ [seg]

/-- The text of a cleaned path, from its elements: joined by `/`, behind a `/`
when the path is rooted, and `.` for a relative path without elements. -/
def renderPath (rooted : Bool) (out : List GoString) : GoString :=
  if rooted then '/' :: "/".toList.intercalate out
  else if out = [] then ".".toList
  else "/".toList.intercalate out

/-- The function `filepath.Clean`: the shortest path name equivalent to `path`
by purely lexical processing. -/
def Clean (path : GoString) : GoString :=
  if path = [] then ".".toList
  else
    renderPath (path.head? = some '/')
      ((path.splitOn '/').foldl (cleanStep (path.head? = some '/')) [])

/-- The function `filepath.Join` of two elements: leading empty elements are ignored, the
rest is joined with `/` and cleaned. -/
def Join (a b : GoString) : GoString :=
  if a ≠ [] then Clean (a ++ "/".toList ++ b)
  else if b ≠ [] then Clean b
  else []

/-- The function `filepath.Split`: the path up to and including the final `/`, and the rest. -/
def Split (path : GoString) : GoString × GoString :=
  let file := (path.reverse.takeWhile (fun c => c ≠ '/')).reverse
  (path.take (path.length - file.length), file)

/-- The function `cleanGlobPath`: the directory part of a glob pattern, ready for `glob`. -/
def cleanGlobPath (path : GoString) : GoString :=
  if path = [] then ".".toList
  else if path = "/".toList then path
  else path.dropLast

/-- The function `hasMeta`: whether the path holds one of the characters `*?[\`. -/
def hasMeta (path : GoString) : Bool :=
  path.any (fun c => c = '*' ∨ c = '?' ∨ c = '[' ∨ c = '\\')

/-- The scan loop of `scanChunk`: the chunk ends at the first `*` that is
outside a bracket expression; a backslash skips the character after it. -/
def scanLoop : GoString → Bool → Bool → GoString × GoString
  | [], _, _ => ([], [])
  | c :: rest, inrange, escaped =>
    if escaped then
      let r := scanLoop rest inrange false
      (c :: r.1, r.2)
    else if c = '\\' then
      let r := scanLoop rest inrange true
      (c :: r.1, r.2)
    else if c = '[' then
      let r := scanLoop rest true false
      (c :: r.1, r.2)
    else if c = ']' then
      let r := scanLoop rest false false
      (c :: r.1, r.2)
    else if c = '*' ∧ inrange = false then ([], c :: rest)
    else
      let r := scanLoop rest inrange false
      (c :: r.1, r.2)

/-- The function `scanChunk`: whether the pattern starts with stars, the chunk after them,
and the rest of the pattern. -/
def scanChunk (pattern : GoString) : Bool × GoString × GoString :=
  let star := pattern.head? = some '*'
  let r := scanLoop (pattern.dropWhile (fun c => c = '*')) false false
  (star, r.1, r.2)

/-- The function `getEsc`: a possibly escaped character of a bracket expression and the
chunk after it, which must not be empty. -/
def getEsc : GoString → Except Err (Char × GoString)
  | [] => .error .badPattern
  | c :: rest =>
    if c = '-' ∨ c = ']' then .error .badPattern
    else
      match (if c = '\\' then rest else c :: rest) with
      | [] => .error .badPattern
      | r :: nchunk => if nchunk = [] then .error .badPattern else .ok (r, nchunk)

/-- The range loop of a bracket expression in `matchChunk`: `r` is the
character of the name under test, `matched` whether a range held it so far,
`first` whether no range has been read yet. The result is `matched` and the
chunk after the closing bracket. -/
def classLoop (r : Char) : Nat → GoString → Bool → Bool → Except Err (Bool × GoString)
  | 0, _, _, _ => .error .badPattern
  | fuel + 1, chunk, matched, first =>
    if chunk.head? = some ']' ∧ first = false then .ok (matched, chunk.tail)
    else
      match getEsc chunk with
      | .error e => .error e
      | .ok (lo, chunk1) =>
        if chunk1.head? = some '-' then
          match getEsc chunk1.tail with
          | .error e => .error e
          | .ok (hi, chunk2) =>
            classLoop r fuel chunk2 (matched || (decide (lo ≤ r) && decide (r ≤ hi))) false
        else
          classLoop r fuel chunk1 (matched || (decide (lo ≤ r) && decide (r ≤ lo))) false

/-- The loop of `matchChunk`. After the match has failed the loop goes on
over the chunk, checking that it is well formed, without reading `s`. -/
def matchChunkLoop : Nat → GoString → GoString → Bool → Except Err (Option GoString)
  | 0, _, _, _ => .error .badPattern
  | fuel + 1, chunk, s, failed =>
    match chunk with
    | [] => .ok (if failed then none else some s)
    | c :: rest =>
      let failed := failed || s.isEmpty
      if c = '[' then
        let r := if failed then Char.ofNat 0 else s.headD (Char.ofNat 0)
        let s := if failed then s else s.tail
        let negated := rest.head? = some '^'
        let chunk1 := if negated then rest.tail else rest
        match classLoop r fuel chunk1 false true with
        | .error e => .error e
        | .ok (matched, chunk2) =>
          matchChunkLoop fuel chunk2 s (failed || (matched == decide negated))
      else if c = '?' then
        matchChunkLoop fuel rest (if failed then s else s.tail)
          (failed || s.head? = some '/')
      else if c = '\\' then
        match rest with
        | [] => .error .badPattern
        | d :: rest1 =>
          matchChunkLoop fuel rest1 (if failed then s else s.tail)
            (failed || s.head? ≠ some d)
      else
        matchChunkLoop fuel rest (if failed then s else s.tail)
          (failed || s.head? ≠ some c)

/-- The function `matchChunk`: whether the chunk matches the beginning of `s`; if so the
remainder of `s` is returned. -/
def matchChunk (chunk s : GoString) : Except Err (Option GoString) :=
  matchChunkLoop (chunk.length + 1) chunk s false

/-- The loop of `Match` that, after a star, looks for a match of the chunk
skipping a growing number of characters of the name; it cannot skip `/`. When
the chunk is the last one the name must be exhausted. -/
def starLoop (chunk : GoString) (isLast : Bool) : GoString → Except Err (Option GoString)
  | [] => .ok none
  | c :: rest =>
    if c = '/' then .ok none
    else
      match matchChunk chunk rest with
      | .error e => .error e
      | .ok (some t) => if isLast ∧ t ≠ [] then starLoop chunk isLast rest else .ok (some t)
      | .ok none => starLoop chunk isLast rest

/-- The check that the remainder of a pattern is syntactically valid, made by
`Match` before it reports a failed match. -/
def checkRest : Nat → GoString → Except Err Unit
  | 0, _ => .ok ()
  | fuel + 1, pattern =>
    if pattern = [] then .ok ()
    else
      let sc := scanChunk pattern
      match matchChunk sc.2.1 [] with
      | .error e => .error e
      | .ok _ => checkRest fuel sc.2.2

/-- The main loop of `filepath.Match`. -/
def matchLoop : Nat → GoString → GoString → Except Err Bool
  | 0, _, _ => .error .badPattern
  | fuel + 1, pattern, name =>
    if pattern = [] then .ok (decide (name = []))
    else
      let sc := scanChunk pattern
      let star := sc.1
      let chunk := sc.2.1
      let pattern1 := sc.2.2
      if star = true ∧ chunk = [] then .ok (!name.contains '/')
      else
        let fallback : Except Err Bool :=
          match (if star then starLoop chunk (decide (pattern1 = [])) name else .ok none) with
          | .error e => .error e
          | .ok (some t) => matchLoop fuel pattern1 t
          | .ok none =>
            match checkRest (pattern1.length + 1) pattern1 with
            | .error e => .error e
            | .ok _ => .ok false
        match matchChunk chunk name with
        | .error e => .error e
        | .ok (some t) => if t = [] ∨ pattern1 ≠ [] then matchLoop fuel pattern1 t else fallback
        | .ok none => fallback

/-- The function `filepath.Match` (Go 1.16 and later): whether `name` matches the shell file
name pattern. In a name with multi-byte characters Go also tries byte offsets
inside a character after a star; the model tries character offsets. -/
def Match (pattern name : GoString) : Except Err Bool :=
  matchLoop (pattern.length + 1) pattern name

/-! ## The file system -/

/-- A regular file: its bytes, and whether the process may open it for reading. -/
structure File where
  content : GoString
  readable : Bool
deriving DecidableEq, Repr

/-- A file system without symbolic links: the directories and the regular
files, each listed once under its cleaned path name (relative to the working
directory, or rooted). The root `/`, the working directory `.` and the
directories above it (`..`, `../..`, and so on) always exist. -/
structure FS where
  dirs : List GoString
  files : List (GoString × File)
deriving DecidableEq, Repr

/-- Whether a cleaned path name consists of `..` elements only. -/
def dotsOnly (q : GoString) : Bool :=
  (q.splitOn '/').all (fun s => decide (s = "..".toList))

/-- Whether the node with the cleaned name `q` is a directory. -/
def FS.isDirNode (fs : FS) (q : GoString) : Bool :=
  decide (q = "/".toList) || decide (q = ".".toList) || dotsOnly q || decide (q ∈ fs.dirs)

/-- The regular file with the cleaned name `q`, if there is one. -/
def FS.fileNode (fs : FS) (q : GoString) : Option File :=
  if fs.isDirNode q then none
  else (fs.files.find? (fun e => decide (e.1 = q))).map (fun e => e.2)

/-- Whether a node has the cleaned name `q`. -/
def FS.nodeExists (fs : FS) (q : GoString) : Bool :=
  fs.isDirNode q || (fs.fileNode q).isSome

/-- The walk of the kernel along the elements of a path: every step, also over
an empty element, `.` or `..`, starts from a directory; `out` holds the
elements of the cleaned name reached so far. -/
def walk (fs : FS) (rooted : Bool) : List GoString → List GoString → Option (List GoString)
  | [], out => some out
  | seg :: rest, out =>
    if fs.isDirNode (renderPath rooted out) then walk fs rooted rest (cleanStep rooted out seg)
    else none

/-- The cleaned name of the node that `path` denotes, when the walk along
`path` succeeds; the node itself need not exist. The empty path denotes
nothing. -/
def FS.locate (fs : FS) (path : GoString) : Option GoString :=
  if path = [] then none
  else
    (walk fs (path.head? = some '/') (path.splitOn '/') []).map
      (renderPath (path.head? = some '/'))

/-- Whether `p` names a directory. -/
def FS.isDir (fs : FS) (p : GoString) : Bool :=
  match fs.locate p with
  | some q => fs.isDirNode q
  | none => false

/-- The regular file named `p`, if there is one. -/
def FS.file (fs : FS) (p : GoString) : Option File :=
  match fs.locate p with
  | some q => fs.fileNode q
  | none => none

/-- Whether `p` names a directory or a regular file. -/
def FS.pathExists (fs : FS) (p : GoString) : Bool :=
  fs.isDir p || (fs.file p).isSome

/-- The directory that holds the last element of the cleaned name `q`. -/
def parentDir (q : GoString) : GoString := cleanGlobPath (Split q).1

/-- The function `os.Stat` (and `os.Lstat`), reduced to whether it succeeds and whether the
node is a directory. -/
def Stat (fs : FS) (p : GoString) : Except Err Bool :=
  if fs.pathExists p then .ok (fs.isDir p) else .error .notExist

/-- The function `os.Mkdir`: the directory is created when the walk along `p`
succeeds and nothing has its name. -/
def Mkdir (fs : FS) (p : GoString) : Except Err FS :=
  match fs.locate p with
  | none => .error .notExist
  | some q =>
    if fs.nodeExists q then .error .exist
    else .ok { fs with dirs := fs.dirs ++ [q] }

/-- The file list after a write to the cleaned name `q`: an existing file gets
the new content, otherwise a readable file is added. -/
def putFile (q data : GoString) : List (GoString × File) → List (GoString × File)
  | [] => [(q, { content := data, readable := true })]
  | e :: rest =>
    if e.1 = q then (q, { e.2 with content := data }) :: rest
    else e :: putFile q data rest

/-- The function `ioutil.WriteFile`: fails when the walk along `p` fails (a
directory on the way is missing) or when `p` names a directory. -/
def WriteFile (fs : FS) (p data : GoString) : Except Err FS :=
  match fs.locate p with
  | none => .error .notExist
  | some q =>
    if fs.isDirNode q then .error .isDirectory
    else .ok { fs with files := putFile q data fs.files }

/-- The function `ioutil.ReadFile`. -/
def ReadFile (fs : FS) (p : GoString) : Except Err GoString :=
  match fs.file p with
  | some f => if f.readable then .ok f.content else .error .permission
  | none => if fs.isDir p then .error .isDirectory else .error .notExist

/-- The order of `sort.Strings`. -/
def strLe : GoString → GoString → Bool
  | [], _ => true
  | _ :: _, [] => false
  | a :: as, b :: bs => if a < b then true else if b < a then false else strLe as bs

/-- The nodes of a file system that are entries of the directory with the
cleaned name `q`. -/
def entriesOf (fs : FS) (q : GoString) : List GoString :=
  (fs.dirs ++ fs.files.map (fun e => e.1)).filter
    (fun n => decide (parentDir n = q) && decide ((Split n).2 ≠ []))

/-- The call `(*os.File).Readdirnames(-1)` followed by `sort.Strings`: the
names of the entries of directory `dir`, sorted. -/
def readDirNames (fs : FS) (dir : GoString) : List GoString :=
  match fs.locate dir with
  | none => []
  | some q =>
    ((entriesOf fs q).map (fun n => (Split n).2)).insertionSort (fun a b => strLe a b = true)

/-- The loop of `glob` over the sorted names of a directory. -/
def globNames (dir pattern : GoString) : List GoString → List GoString → Except Err (List GoString)
  | [], m => .ok m
  | n :: names, m =>
    match Match pattern n with
    | .error e => .error e
    | .ok matched => globNames dir pattern names (if matched then m ++ [Join dir n] else m)

/-- The function `glob`: appends to `matches` the entries of `dir` whose name matches
`pattern`. A `dir` that is missing or is not a directory adds nothing. -/
def globDir (fs : FS) (dir pattern : GoString) (result : List GoString) :
    Except Err (List GoString) :=
  match Stat fs dir with
  | .error _ => .ok result
  | .ok false => .ok result
  | .ok true => globNames dir pattern (readDirNames fs dir) result

/-- The loop of `Glob` over the directories that match the directory part. -/
def globDirs (fs : FS) (file : GoString) : List GoString → List GoString → Except Err (List GoString)
  | [], m => .ok m
  | d :: ds, m =>
    match globDir fs d file m with
    | .error e => .error e
    | .ok m1 => globDirs fs file ds m1

/-- The recursion of `filepath.Glob` (Go 1.16 and later, which first check
that the pattern is well formed); `fuel` bounds the depth, which is at most
the number of path elements of the pattern. -/
def globAux (fs : FS) : Nat → GoString → Except Err (List GoString)
  | 0, _ => .error .badPattern
  | fuel + 1, pattern =>
    match Match pattern [] with
    | .error e => .error e
    | .ok _ =>
      if hasMeta pattern = false then
        match Stat fs pattern with
        | .error _ => .ok []
        | .ok _ => .ok [pattern]
      else
        let dir := cleanGlobPath (Split pattern).1
        let file := (Split pattern).2
        if hasMeta dir = false then globDir fs dir file []
        else if dir = pattern then .error .badPattern
        else
          match globAux fs fuel dir with
          | .error e => .error e
          | .ok m => globDirs fs file m []

/-- The function `filepath.Glob`: the names of all files matching `pattern`. -/
def Glob (fs : FS) (pattern : GoString) : Except Err (List GoString) :=
  globAux fs (pattern.length + 1) pattern

/-! ## `encoding/json` -/

/-- A JSON value as far as decoding into the fields of `PullResponse` tells
values apart: `other` stands for every value of another kind (a number that is
not an integer literal, an array, an object). -/
inductive JVal
  | null
  | bool (b : Bool)
  | int (i : Int)
  | str (s : GoString)
  | other
deriving DecidableEq, Repr

/-- A JSON object: its members in order. -/
abbrev JObj := List (GoString × JVal)

/-- The text layer of `encoding/json`, which the code reaches only through
`json.MarshalIndent(v, "", "    ")` and `json.Unmarshal`: `render` prints an
object as indented JSON text, `parse` reads a text and answers `none` when the
text is not a syntactically valid JSON object (for a `PullResponse` target
`Unmarshal` then leaves the target untouched). -/
structure JsonText where
  render : JObj → GoString
  parse : GoString → Option JObj

/-- The fields of `PullResponse`, in declaration order. -/
inductive Field
  | name | uniqueId | type | module | maxAutoSaves | masterPageUniqueId
  | isMasterPage | composerSettings | body
deriving DecidableEq, Repr

/-- The key of a field, from its `json:"..."` struct tag (lines 17-25). -/
def Field.tag : Field → GoString
  | .name => "name".toList
  | .uniqueId => "uniqueId".toList
  | .type => "type".toList
  | .module => "module".toList
  | .maxAutoSaves => "maxAutoSaves".toList
  | .masterPageUniqueId => "masterPageUniqueId".toList
  | .isMasterPage => "isMasterPage".toList
  | .composerSettings => "composerSettings".toList
  | .body => "body".toList

/-- All fields, in declaration order. -/
def Field.all : List Field :=
  [.name, .uniqueId, .type, .module, .maxAutoSaves, .masterPageUniqueId,
   .isMasterPage, .composerSettings, .body]

/-- The object `json.Marshal` builds for a `PullResponse`: one member per field
in declaration order; `masterPageUniqueId` and `body` carry `omitempty` and are
left out when empty; a nil `composerSettings` is `null`. -/
def toJSON (v : PullResponse) : JObj :=
  [("name".toList, JVal.str v.Name),
   ("uniqueId".toList, JVal.str v.UniqueID),
   ("type".toList, JVal.str v.Type_),
   ("module".toList, JVal.str v.Module),
   ("maxAutoSaves".toList, JVal.int v.MaxAutoSaves)]
  ++ (if v.MasterPageUniqueID = [] then []
      else [("masterPageUniqueId".toList, JVal.str v.MasterPageUniqueID)])
  ++ [("isMasterPage".toList, JVal.bool v.IsMasterPage),
      ("composerSettings".toList,
        match v.ComposerSettings with
        | none => JVal.null
        | some s => JVal.str s)]
  ++ (if v.Body = [] then [] else [("body".toList, JVal.str v.Body)])

/-- The call `json.MarshalIndent(v, "", "    ")`. -/
def MarshalIndent (J : JsonText) (v : PullResponse) : GoString := J.render (toJSON v)

/-- Whether a character of a key matches a letter of a tag under the case
folding of the decoder: the same letter in either case, and the two
characters outside ASCII that fold to `s` and `k`. -/
def foldEqChar (t k : Char) : Bool :=
  decide (k.toLower = t.toLower)
    || (decide (t.toLower = 's') && decide (k = Char.ofNat 0x17F))
    || (decide (t.toLower = 'k') && decide (k = Char.ofNat 0x212A))

/-- The case-insensitive comparison of a tag with a key. -/
def foldEq : GoString → GoString → Bool
  | [], [] => true
  | t :: ts, k :: ks => foldEqChar t k && foldEq ts ks
  | _, _ => false

/-- The field a key of the input selects: the field whose tag equals the key,
otherwise the first field whose tag equals it up to case. -/
def fieldFor (key : GoString) : Option Field :=
  match Field.all.find? (fun f => decide (f.tag = key)) with
  | some f => some f
  | none => Field.all.find? (fun f => foldEq f.tag key)

/-- Storing a string value: `null` and values of another kind leave the field
as it is. -/
def storeString (old : GoString) : JVal → GoString
  | .str s => s
  | _ => old

/-- Storing one member value into a field. A value of the wrong kind, or an
integer outside the range of a 64-bit `int`, leaves the field as it is, except
that the decoder has by then allocated the string behind a nil
`ComposerSettings`; `null` sets `ComposerSettings` to nil. -/
def decodeField (r : PullResponse) (f : Field) (v : JVal) : PullResponse :=
  match f with
  | .name => { r with Name := storeString r.Name v }
  | .uniqueId => { r with UniqueID := storeString r.UniqueID v }
  | .type => { r with Type_ := storeString r.Type_ v }
  | .module => { r with Module := storeString r.Module v }
  | .maxAutoSaves =>
    match v with
    | .int i => if -(2 : Int) ^ 63 ≤ i ∧ i < (2 : Int) ^ 63 then { r with MaxAutoSaves := i } else r
    | _ => r
  | .masterPageUniqueId => { r with MasterPageUniqueID := storeString r.MasterPageUniqueID v }
  | .isMasterPage =>
    match v with
    | .bool b => { r with IsMasterPage := b }
    | _ => r
  | .composerSettings =>
    match v with
    | .null => { r with ComposerSettings := none }
    | .str s => { r with ComposerSettings := some s }
    | _ => { r with ComposerSettings := some (r.ComposerSettings.getD []) }
  | .body => { r with Body := storeString r.Body v }

/-- Decoding one member of the input object. -/
def decodeMember (r : PullResponse) (kv : GoString × JVal) : PullResponse :=
  match fieldFor kv.1 with
  | some f => decodeField r f kv.2
  | none => r

/-- The call `json.Unmarshal(data, pullRes)` with its error dropped, as the code does:
the members of the input object are stored one after the other. -/
def Unmarshal (J : JsonText) (data : GoString) (pullRes : PullResponse) : PullResponse :=
  match J.parse data with
  | none => pullRes
  | some o => o.foldl decodeMember pullRes

/-! ## The writer and the reader (`types/skuid.go`, lines 65-170) -/

/-- The method `(*PullResponse).WriteAtRest` (lines 65-90): the returned error (`none` is
`nil`) and the file system it leaves. The error of `os.Mkdir` is dropped. -/
def WriteAtRest (J : JsonText) (fs : FS) (page : PullResponse) (path : GoString) :
    Option Err × FS :=
  let fs1 :=
    match Stat fs path with
    | .error _ =>
      match Mkdir fs path with
      | .ok fs' => fs'
      | .error _ => fs
    | .ok _ => fs
  let clone := { page with Body := [] }
  let str := MarshalIndent J clone
  match WriteFile fs1 (manifestPath path page) str with
  | .error err => (some err, fs1)
  | .ok fs2 =>
    let xml := page.Body
    match WriteFile fs2 (bodyPath path page) xml with
    | .error err => (some err, fs2)
    | .ok fs3 => (none, fs3)

/-- The function `FilterByGlob` (lines 92-94). -/
def FilterByGlob (fs : FS) (pattern : GoString) : Except Err (List GoString) :=
  Glob fs pattern

/-- The function `FilterByModule` (lines 96-105). -/
def FilterByModule (fs : FS) (dir moduleFilter : GoString) : Except Err (List GoString) :=
  let filter : GoString := []
  let filter := filter ++ moduleFilter
  let filter := filter ++ "_*".toList
  let pattern := Join dir filter
  Glob fs pattern

/-- The name `ReadFiles` reads the body from (line 154). -/
def bodyFilename (file : GoString) : GoString :=
  stringsReplaceFirst file ".json".toList ".xml".toList

/-- The bytes `ioutil.ReadFile` hands back when its error is dropped: none on
failure. -/
def readOrEmpty (fs : FS) (p : GoString) : GoString :=
  match ReadFile fs p with
  | .ok data => data
  | .error _ => []

/-- The body of the loop of `ReadFiles` (lines 150-167): the record read for
one manifest candidate. -/
def readDefinition (J : JsonText) (fs : FS) (file : GoString) : PullResponse :=
  let metadataFilename := file
  let metadataFile := readOrEmpty fs metadataFilename
  let bodyFile := readOrEmpty fs (bodyFilename file)
  let pullRes := Unmarshal J metadataFile PullResponse.zero
  { pullRes with Body := bodyFile }

/-- The first part of `ReadFiles` (lines 123-144): the candidate files, from
the explicit pattern when `file` is not empty, otherwise from the module
filter after `os.Stat(dir)` has succeeded. -/
def resolveFiles (fs : FS) (dir moduleFilter file : GoString) : Except Err (List GoString) :=
  if file ≠ [] then FilterByGlob fs file
  else
    match Stat fs dir with
    | .error err => .error err
    | .ok _ => FilterByModule fs dir moduleFilter

/-- The function `ReadFiles` (lines 121-170). -/
def ReadFiles (J : JsonText) (fs : FS) (dir moduleFilter file : GoString) :
    Except Err (List PullResponse) :=
  match resolveFiles fs dir moduleFilter file with
  | .error err => .error err
  | .ok files =>
    let files := filterOutXmlFiles files
    .ok (files.foldl (fun definitions file => definitions ++ [readDefinition J fs file]) [])

/-! ## A plain instance of the JSON text layer, for evaluation on concrete inputs -/

/-- A string literal: quote, backslash and newline are escaped, every other
character is printed as it is. -/
def renderString (s : GoString) : GoString :=
  '"' :: (s.flatMap (fun c =>
    if c = '"' then ['\\', '"']
    else if c = '\\' then ['\\', '\\']
    else if c = '\n' then ['\\', 'n']
    else [c])) ++ ['"']

/-- Decimal digits of a natural number; `fuel` bounds the number of digits. -/
def natDigits : Nat → Nat → GoString → GoString
  | 0, _, acc => acc
  | fuel + 1, n, acc =>
    let acc := Char.ofNat (48 + n % 10) :: acc
    if n / 10 = 0 then acc else natDigits fuel (n / 10) acc

/-- An integer literal. -/
def renderInt (i : Int) : GoString :=
  if i < 0 then '-' :: natDigits (i.natAbs + 1) i.natAbs []
  else natDigits (i.natAbs + 1) i.natAbs []

/-- A member value. -/
def renderVal : JVal → GoString
  | .null => "null".toList
  | .bool true => "true".toList
  | .bool false => "false".toList
  | .int i => renderInt i
  | .str s => renderString s
  | .other => "[]".toList

/-- An object, one member per line, indented by four spaces. -/
def renderObj (o : JObj) : GoString :=
  if o = [] then "\x7b\x7d".toList
  else
    "\x7b\n".toList
      ++ ",\n".toList.intercalate
          (o.map (fun kv => "    ".toList ++ renderString kv.1 ++ ": ".toList ++ renderVal kv.2))
      ++ "\n\x7d".toList

/-- Skipping white space. -/
def skipWs (s : GoString) : GoString :=
  s.dropWhile (fun c => c = ' ' ∨ c = '\n' ∨ c = '\t' ∨ c = '\r')

/-- The rest of a string literal after its opening quote: the string and the
input after the closing quote. -/
def parseStringBody : GoString → Bool → Option (GoString × GoString)
  | [], _ => none
  | c :: rest, true =>
    (parseStringBody rest false).map (fun r => ((if c = 'n' then '\n' else c) :: r.1, r.2))
  | c :: rest, false =>
    if c = '"' then some ([], rest)
    else if c = '\\' then parseStringBody rest true
    else (parseStringBody rest false).map (fun r => (c :: r.1, r.2))

/-- The value of a run of decimal digits. -/
def digitsValue (ds : GoString) : Nat :=
  ds.foldl (fun n c => 10 * n + (c.toNat - 48)) 0

/-- A member value and the input after it. -/
def parseVal (s : GoString) : Option (JVal × GoString) :=
  if "null".toList.isPrefixOf s then some (.null, s.drop 4)
  else if "true".toList.isPrefixOf s then some (.bool true, s.drop 4)
  else if "false".toList.isPrefixOf s then some (.bool false, s.drop 5)
  else if "[]".toList.isPrefixOf s then some (.other, s.drop 2)
  else
    match s with
    | [] => none
    | c :: rest =>
      if c = '"' then (parseStringBody rest false).map (fun r => (JVal.str r.1, r.2))
      else
        let neg := decide (c = '-')
        let body := if neg then rest else s
        let ds := body.takeWhile Char.isDigit
        let after := body.dropWhile Char.isDigit
        if ds = [] then none
        else if after.head? = some '.' ∨ after.head? = some 'e' ∨ after.head? = some 'E' then
          some (.other, after.dropWhile (fun d => d.isDigit ∨ d = '.' ∨ d = 'e' ∨ d = 'E' ∨ d = '+' ∨ d = '-'))
        else some (.int (if neg then -(digitsValue ds : Int) else (digitsValue ds : Int)), after)

/-- The members of an object after the opening brace, up to the closing one;
only white space may follow. -/
def parseMembers : Nat → GoString → Option JObj
  | 0, _ => none
  | fuel + 1, s =>
    match skipWs s with
    | [] => none
    | c :: rest =>
      if c ≠ '"' then none
      else
        match parseStringBody rest false with
        | none => none
        | some (key, s1) =>
          match skipWs s1 with
          | [] => none
          | d :: s2 =>
            if d ≠ ':' then none
            else
              match parseVal (skipWs s2) with
              | none => none
              | some (v, s3) =>
                match skipWs s3 with
                | [] => none
                | e :: s4 =>
                  if e = '\x7d' then (if skipWs s4 = [] then some [(key, v)] else none)
                  else if e = ',' then (parseMembers fuel s4).map (fun o => (key, v) :: o)
                  else none

/-- A text as an object. -/
def parseObj (s : GoString) : Option JObj :=
  match skipWs s with
  | [] => none
  | c :: rest =>
    if c ≠ '\x7b' then none
    else if (skipWs rest).head? = some '\x7d' then
      (if skipWs (skipWs rest).tail = [] then some [] else none)
    else parseMembers s.length rest

/-- The plain text layer. -/
def plainJson : JsonText := { render := renderObj, parse := parseObj }

/-! ## The archive extractor (`cmd`, known through `TestRetrieve`) -/

/-- Modelled from the spec: the closed set of recognized category directories
(section 6), which the missing source of `writeResultsToDisk` holds. -/
def categories : List GoString :=
  ["datasources".toList, "pages".toList, "apps".toList, "profiles".toList, "themes".toList]

/-- An entry of an archive, as `TestRetrieve` builds them (`RetrieveFile`): its
path, and its content or the error that reading it gives. -/
structure ArchiveEntry where
  Name : GoString
  Body : Except Err GoString

/-- The calls made so far to the two injected makers, in order, as the mock
makers of `TestRetrieve` record them. -/
structure Calls where
  directoriesCreated : List GoString
  filesCreated : List (GoString × GoString)
deriving DecidableEq, Repr

/-- Modelled from the spec: the first path segment of an entry, by which the
missing source of `writeResultsToDisk` classifies it (section 4.1, step 2). -/
def firstSegment (path : GoString) : GoString := path.takeWhile (fun c => c ≠ '/')

/-- The function `filepath.Dir`: the containing directory of a path. -/
def Dir (path : GoString) : GoString := Clean (Split path).1

/-- Modelled from the spec: the handling of one archive entry by
`writeResultsToDisk`, whose source is not part of the files at hand (section
4.1, steps 2 to 5). An entry whose first path segment is not a recognized
category is skipped. Otherwise the containing directory is passed to the
directory maker unless this run has already passed it, the content is read,
and path and content go to the file maker; the first failure ends the run. -/
def extractEntry (fileMaker : GoString → GoString → Option Err)
    (directoryMaker : GoString → Option Err) (done : Calls) (e : ArchiveEntry) :
    Option Err × Calls :=
  if firstSegment e.Name ∉ categories then (none, done)
  else
    let dir := Dir e.Name
    let afterDir : Option Err × Calls :=
      if dir ∈ done.directoriesCreated then (none, done)
      else (directoryMaker dir, { done with directoriesCreated := done.directoriesCreated ++ [dir] })
    match afterDir.1 with
    | some err => (some err, afterDir.2)
    | none =>
      match e.Body with
      | .error err => (some err, afterDir.2)
      | .ok content =>
        (fileMaker e.Name content,
          { afterDir.2 with filesCreated := afterDir.2.filesCreated ++ [(e.Name, content)] })

/-- Modelled from the spec: the entries of one archive stream, in order, up to
the first failure (section 4.1, steps 1 and 5). -/
def extractEntries (fileMaker : GoString → GoString → Option Err)
    (directoryMaker : GoString → Option Err) : List ArchiveEntry → Calls → Option Err × Calls
  | [], done => (none, done)
  | e :: rest, done =>
    match extractEntry fileMaker directoryMaker done e with
    | (some err, done1) => (some err, done1)
    | (none, done1) => extractEntries fileMaker directoryMaker rest done1

/-- Modelled from the spec: the archive streams, in order, sharing the set of
directories already made (section 4.1, steps 1, 3 and 6). -/
def extractStreams (fileMaker : GoString → GoString → Option Err)
    (directoryMaker : GoString → Option Err) : List (List ArchiveEntry) → Calls → Option Err × Calls
  | [], done => (none, done)
  | a :: rest, done =>
    match extractEntries fileMaker directoryMaker a done with
    | (some err, done1) => (some err, done1)
    | (none, done1) => extractStreams fileMaker directoryMaker rest done1

/-- Modelled from the spec: `writeResultsToDisk(results, fileMaker,
directoryMaker)`, whose source is not part of the files at hand (section 4.1):
the returned error and the calls it made, starting a run with no directory
made. -/
def writeResultsToDisk (results : List (List ArchiveEntry))
    (fileMaker : GoString → GoString → Option Err) (directoryMaker : GoString → Option Err) :
    Option Err × Calls :=
  extractStreams fileMaker directoryMaker results { directoriesCreated := [], filesCreated := [] }

/-! ## Vocabulary of the statements -/

/-- The file system in which `WriteAtRest` writes: the one given, with the
directory `path` made when `os.Stat` fails and `os.Mkdir` succeeds. -/
def afterMkdir (fs : FS) (path : GoString) : FS :=
  match Stat fs path with
  | .error _ =>
    match Mkdir fs path with
    | .ok fs' => fs'
    | .error _ => fs
  | .ok _ => fs

/-- Following the spec: the path obtained from `f` by replacing its extension
(the final dot-suffix of its last path element) with the body extension `.xml`. -/
def withBodyExtension (f : GoString) : GoString :=
  f.take (f.length - (Ext f).length) ++ ".xml".toList

/-- Whether the text `sub` occurs in `s`. -/
def containsText (sub : GoString) : GoString → Bool
  | [] => sub.isPrefixOf []
  | c :: cs => sub.isPrefixOf (c :: cs) || containsText sub cs

/-- A path element that `filepath.Clean` keeps as it is: not empty, not `.`
and not `..`. -/
def plainElement (s : GoString) : Prop := s ≠ [] ∧ s ≠ ".".toList ∧ s ≠ "..".toList

/-- The content of an archive entry; empty when reading it fails. -/
def ArchiveEntry.content (e : ArchiveEntry) : GoString :=
  match e.Body with
  | .ok c => c
  | .error _ => []

/-- The entries of an archive whose first path segment is a recognized category. -/
def recognized (archive : List ArchiveEntry) : List ArchiveEntry :=
  archive.filter (fun e => decide (firstSegment e.Name ∈ categories))

/-- The cleaned name of the entry `x` of the directory with the cleaned name `c`. -/
def childOf (c x : GoString) : GoString :=
  if c = ".".toList then x
  else if c = "/".toList then '/' :: x
  else c ++ '/' :: x

/-- The shape of the elements `filepath.Clean` emits: no element is empty, `.`
or holds a `/`; a rooted path has no `..` element; on a relative path the `..`
elements come first. -/
def canonOut (rooted : Bool) (out : List GoString) : Prop :=
  (∀ s ∈ out, s ≠ [] ∧ s ≠ ".".toList ∧ '/' ∉ s) ∧
  (rooted = true → "..".toList ∉ out) ∧
  (∀ pre s post, out = pre ++ s :: post → s = "..".toList → ∀ t ∈ pre, t = "..".toList)

/-- Every directory above the node with the elements `out` exists. -/
def ancestorsExist (fs : FS) (rooted : Bool) (out : List GoString) : Prop :=
  ∀ pre s post, out = pre ++ s :: post → fs.isDirNode (renderPath rooted pre) = true

/-- A pattern without bracket expressions and escapes. -/
def simplePattern (pattern : GoString) : Prop := ∀ c ∈ pattern, c ≠ '[' ∧ c ≠ '\\'

instance instDecidableSimplePattern : DecidablePred simplePattern := fun s => by
  unfold simplePattern
  exact inferInstance

/-! ## Concrete inputs -/

/-- The record of the spec's scenario. -/
def homeRecord : PullResponse :=
  { Name := "Home".toList, UniqueID := "u-1".toList, Type_ := "page".toList,
    Module := "app1".toList, MaxAutoSaves := 25, MasterPageUniqueID := [],
    IsMasterPage := false, ComposerSettings := some "x".toList, Body := "<xml/>".toList }

/-- A record without module. -/
def unfiledRecord : PullResponse := { homeRecord with Module := [] }

/-- A record whose module holds the glob character `[`. -/
def bracketRecord : PullResponse := { homeRecord with Module := "app[1".toList }

/-- A record whose name holds the text `.json`. -/
def dottedRecord : PullResponse :=
  { PullResponse.zero with Name := "a.json".toList, Module := "m".toList, Body := "<x/>".toList }

/-- A file system with an empty directory `pages`. -/
def pagesFS : FS := { dirs := ["pages".toList], files := [] }

/-- The scenario of the spec: the manifest `{"name":"Home","module":"app1"}`
and the body `<xml/>` in the directory `pages`. -/
def scenarioFS : FS :=
  { dirs := ["pages".toList],
    files :=
      [("pages/app1_Home.json".toList,
          { content := "\x7b\"name\":\"Home\",\"module\":\"app1\"\x7d".toList, readable := true }),
       ("pages/app1_Home.xml".toList, { content := "<xml/>".toList, readable := true })] }

/-- A record whose module holds the glob characters `*` and `?`. -/
def starRecord : PullResponse := { homeRecord with Module := "a*p?".toList }

/-- A record whose module starts with `./`. -/
def dotSlashRecord : PullResponse := { homeRecord with Module := "./app1".toList }

/-- A record whose module leads out of the base directory. -/
def upRecord : PullResponse := { homeRecord with Module := "../app1".toList }

/-- A record whose module holds a backslash. -/
def escRecord : PullResponse := { homeRecord with Module := "ap\\p".toList }

/-- A file system without directories and files besides the root, the
working directory and the directories above it. -/
def emptyFS : FS := { dirs := [], files := [] }

/-- The manifest of a record `Old` of module `app1`. -/
def oldManifest : File :=
  { content := "\x7b\"name\":\"Old\",\"module\":\"app1\"\x7d".toList, readable := true }

/-- The record that `ReadFiles` returns for `oldManifest` when it finds no body. -/
def oldRecord : PullResponse :=
  { PullResponse.zero with Name := "Old".toList, Module := "app1".toList }

/-- A directory `pages` that holds the manifest of the record `Old`. -/
def otherPagesFS : FS :=
  { dirs := ["pages".toList], files := [("pages/app1_Old.json".toList, oldManifest)] }

/-- An empty directory `pages` next to the manifest of the record `Old`. -/
def besidePagesFS : FS :=
  { dirs := ["pages".toList], files := [("app1_Old.json".toList, oldManifest)] }

/-- A directory `pages` with one file, `m_notes.txt`, and no `m_notes.xml`. -/
def notesFS : FS :=
  { dirs := ["pages".toList],
    files := [("pages/m_notes.txt".toList,
      { content := "\x7b\"name\":\"notes\"\x7d".toList, readable := true })] }

/-- The archive of the test case "retrieve two data sources", with a file
outside the categories between the two entries. -/
def twoDataSources : List ArchiveEntry :=
  [{ Name := "datasources/mydatasource.json".toList,
     Body := .ok "this is not even close to good JSON".toList },
   { Name := "readme.txt".toList, Body := .ok "This archive contains some text files.".toList },
   { Name := "datasources/mydatasource2.json".toList,
     Body := .ok "this is not even close to good JSON2".toList }]

/-! ## Loops that append -/

theorem foldl_snoc_filter {α : Type} (p : α → Prop) [DecidablePred p] (l init : List α) :
    l.foldl (fun acc x => if p x then acc else acc ++ [x]) init
      = init ++ l.filter (fun x => decide (¬ p x)) := by
  induction l generalizing init with
  | nil => simp
  | cons a l ih =>
    simp only [List.foldl_cons, ih]
    by_cases h : p a <;> simp [h, List.filter_cons]

theorem foldl_snoc_map {α β : Type} (f : α → β) (l : List α) (init : List β) :
    l.foldl (fun acc x => acc ++ [f x]) init = init ++ l.map f := by
  induction l generalizing init with
  | nil => simp
  | cons a l ih => simp [List.foldl_cons, ih]

theorem filterOutXmlFiles_eq_filter (files : List GoString) :
    filterOutXmlFiles files = files.filter (fun p => decide (Ext p ≠ ".xml".toList)) := by
  unfold filterOutXmlFiles
  rw [foldl_snoc_filter (fun p => Ext p = ".xml".toList)]
  simp

theorem ReadFiles_of_resolved (J : JsonText) (fs : FS) (dir moduleFilter file : GoString)
    (files : List GoString) (h : resolveFiles fs dir moduleFilter file = .ok files) :
    ReadFiles J fs dir moduleFilter file
      = .ok ((files.filter (fun p => decide (Ext p ≠ ".xml".toList))).map (readDefinition J fs)) := by
  unfold ReadFiles
  rw [h]
  simp only [filterOutXmlFiles_eq_filter, foldl_snoc_map, List.nil_append]

theorem underscore_split_unique (m1 m2 n1 n2 : GoString) (h1 : '_' ∉ m1) (h2 : '_' ∉ m2)
    (h : m1 ++ '_' :: n1 = m2 ++ '_' :: n2) : m1 = m2 ∧ n1 = n2 := by
  induction m1 generalizing m2 with
  | nil =>
    cases m2 with
    | nil => simpa using h
    | cons b m2 =>
      simp only [List.nil_append, List.cons_append, List.cons.injEq] at h
      simp only [List.mem_cons, not_or] at h2
      exact absurd h.1 h2.1
  | cons a m1 ih =>
    cases m2 with
    | nil =>
      simp only [List.nil_append, List.cons_append, List.cons.injEq] at h
      simp only [List.mem_cons, not_or] at h1
      exact absurd h.1.symm h1.1
    | cons b m2 =>
      simp only [List.cons_append, List.cons.injEq] at h
      simp only [List.mem_cons, not_or] at h1 h2
      obtain ⟨hm, hn⟩ := ih m2 h1.2 h2.2 h.2
      exact ⟨by rw [h.1, hm], hn⟩

/-! ## Splitting paths -/

theorem takeWhile_append_stop {α : Type} (p : α → Bool) (l r : List α) (x : α)
    (hl : ∀ c ∈ l, p c = true) (hx : p x = false) : (l ++ x :: r).takeWhile p = l := by
  induction l with
  | nil => simp [List.takeWhile_cons, hx]
  | cons a l ih =>
    rw [List.cons_append, List.takeWhile_cons, hl a (List.mem_cons_self a l)]
    simp only [↓reduceIte, List.cons.injEq, true_and]
    exact ih (fun c hc => hl c (List.mem_cons_of_mem a hc))

theorem Split_append (d file : GoString) (h : '/' ∉ file) :
    Split (d ++ '/' :: file) = (d ++ ['/'], file) := by
  have h1 : ((d ++ '/' :: file).reverse.takeWhile (fun c => decide (c ≠ '/'))) = file.reverse := by
    rw [List.reverse_append, List.reverse_cons, List.append_assoc]
    apply takeWhile_append_stop
    · intro c hc
      have : c ≠ '/' := fun hc' => h (by rw [← hc']; exact List.mem_reverse.mp hc)
      simpa using this
    · simp
  unfold Split
  simp only [h1, List.reverse_reverse]
  have h2 : (d ++ '/' :: file).length - file.length = (d ++ ['/']).length := by
    simp only [List.length_append, List.length_cons, List.length_nil]; omega
  rw [h2]
  have h3 : d ++ '/' :: file = (d ++ ['/']) ++ file := by simp
  rw [h3, List.take_left]

theorem firstSegment_append (d rest : GoString) (h : '/' ∉ d) :
    firstSegment (d ++ '/' :: rest) = d := by
  unfold firstSegment
  apply takeWhile_append_stop
  · intro c hc
    have : c ≠ '/' := fun hc' => h (by rw [← hc']; exact hc)
    simpa using this
  · simp

theorem category_no_slash (cat : GoString) (h : cat ∈ categories) : '/' ∉ cat := by
  simp only [categories, List.mem_cons, List.mem_singleton, List.not_mem_nil, or_false] at h
  rcases h with rfl | rfl | rfl | rfl | rfl <;> decide

theorem Clean_category (cat : GoString) (h : cat ∈ categories) : Clean (cat ++ ['/']) = cat := by
  simp only [categories, List.mem_cons, List.mem_singleton, List.not_mem_nil, or_false] at h
  rcases h with rfl | rfl | rfl | rfl | rfl <;> decide

/-! ## The archive extractor, entry by entry -/

theorem extractEntry_unrecognized (fileMaker : GoString → GoString → Option Err)
    (directoryMaker : GoString → Option Err) (done : Calls) (e : ArchiveEntry)
    (h : firstSegment e.Name ∉ categories) :
    extractEntry fileMaker directoryMaker done e = (none, done) := by
  unfold extractEntry
  rw [if_pos h]

theorem extractEntry_in_category (fileMaker : GoString → GoString → Option Err)
    (directoryMaker : GoString → Option Err) (hfile : ∀ p c, fileMaker p c = none)
    (hdir : ∀ p, directoryMaker p = none) (cat file content : GoString) (done : Calls)
    (e : ArchiveEntry) (hcat : cat ∈ categories) (hname : e.Name = cat ++ '/' :: file)
    (hslash : '/' ∉ file) (hbody : e.Body = .ok content) :
    extractEntry fileMaker directoryMaker done e
      = (none, { directoriesCreated :=
                    if cat ∈ done.directoriesCreated then done.directoriesCreated
                    else done.directoriesCreated ++ [cat],
                 filesCreated := done.filesCreated ++ [(e.Name, content)] }) := by
  have hseg : firstSegment e.Name = cat := by
    rw [hname]; exact firstSegment_append cat file (category_no_slash cat hcat)
  have hd : Dir e.Name = cat := by
    unfold Dir
    rw [hname, Split_append cat file hslash]
    exact Clean_category cat hcat
  unfold extractEntry
  rw [if_neg (by rw [hseg]; exact fun h => h hcat)]
  simp only [hd, hbody]
  by_cases hin : cat ∈ done.directoriesCreated
  · simp [hin, hfile]
  · simp [hin, hfile, hdir]

theorem extractEntries_one_category (fileMaker : GoString → GoString → Option Err)
    (directoryMaker : GoString → Option Err) (hfile : ∀ p c, fileMaker p c = none)
    (hdir : ∀ p, directoryMaker p = none) (cat : GoString) (hcat : cat ∈ categories)
    (archive : List ArchiveEntry)
    (h : ∀ e ∈ archive,
      (∃ file content, e.Name = cat ++ '/' :: file ∧ '/' ∉ file ∧ e.Body = .ok content) ∨
        firstSegment e.Name ∉ categories)
    (done : Calls) (hdone : done.directoriesCreated = [] ∨ done.directoriesCreated = [cat]) :
    extractEntries fileMaker directoryMaker archive done
      = (none, { directoriesCreated :=
                    if (recognized archive).length = 0 then done.directoriesCreated else [cat],
                 filesCreated :=
                    done.filesCreated ++ (recognized archive).map (fun e => (e.Name, e.content)) }) := by
  induction archive generalizing done with
  | nil => simp [extractEntries, recognized]
  | cons e rest ih =>
    have hrest := fun e' he' => h e' (List.mem_cons_of_mem e he')
    rcases h e (List.mem_cons_self e rest) with ⟨file, content, hname, hslash, hbody⟩ | hun
    · have hseg : firstSegment e.Name ∈ categories := by
        rw [hname, firstSegment_append cat file (category_no_slash cat hcat)]; exact hcat
      have hc : e.content = content := by simp [ArchiveEntry.content, hbody]
      unfold extractEntries
      rw [extractEntry_in_category fileMaker directoryMaker hfile hdir cat file content done e
        hcat hname hslash hbody]
      simp only
      rw [ih hrest]
      · have hd1 : (if cat ∈ done.directoriesCreated then done.directoriesCreated
            else done.directoriesCreated ++ [cat]) = [cat] := by
          rcases hdone with hd | hd <;> simp [hd]
        simp [recognized, List.filter_cons, hseg, hc, hd1]
      · rcases hdone with hd | hd <;> simp [hd]
    · unfold extractEntries
      rw [extractEntry_unrecognized fileMaker directoryMaker done e hun]
      simp only
      rw [ih hrest done hdone]
      simp [recognized, List.filter_cons, hun]

/-! ## Extensions and the name of the body file -/

theorem extLoop_suffix (l r acc : GoString) (h : ∀ c ∈ l, c ≠ '/' ∧ c ≠ '.') :
    extLoop (l ++ '.' :: r) acc = '.' :: (l.reverse ++ acc) := by
  induction l generalizing acc with
  | nil => simp [extLoop]
  | cons c l ih =>
    obtain ⟨h1, h2⟩ := h c (List.mem_cons_self c l)
    rw [List.cons_append]
    unfold extLoop
    rw [if_neg h1, if_neg h2, ih _ (fun c' hc' => h c' (List.mem_cons_of_mem c hc'))]
    simp

theorem Ext_suffix (s e : GoString) (h : ∀ c ∈ e, c ≠ '/' ∧ c ≠ '.') :
    Ext (s ++ '.' :: e) = '.' :: e := by
  unfold Ext
  rw [List.reverse_append, List.reverse_cons, List.append_assoc]
  have := extLoop_suffix e.reverse s.reverse [] (fun c hc => h c (List.mem_reverse.mp hc))
  simpa using this

theorem json_not_prefix_of_short (s : GoString) (h : ".json".toList.isPrefixOf s = false) :
    ".json".toList.isPrefixOf (s ++ ".json".toList) = true → s = [] := by
  intro hp
  have e : ".json".toList = ['.', 'j', 's', 'o', 'n'] := rfl
  rw [e] at h hp
  rcases s with _ | ⟨a, _ | ⟨b, _ | ⟨c, _ | ⟨d, _ | ⟨f, t⟩⟩⟩⟩⟩
  · rfl
  all_goals simp [List.isPrefixOf] at h hp
  obtain ⟨h1, h2, h3, h4, h5⟩ := hp
  exact absurd h5 (h h1 h2 h3 h4)

theorem bodyFilename_json (s : GoString) (h : containsText ".json".toList s = false) :
    bodyFilename (s ++ ".json".toList) = s ++ ".xml".toList := by
  unfold bodyFilename
  induction s with
  | nil => decide
  | cons c cs ih =>
    unfold containsText at h
    rw [Bool.or_eq_false_iff] at h
    have hnp : ".json".toList.isPrefixOf (c :: cs ++ ".json".toList) = false := by
      cases hp : ".json".toList.isPrefixOf (c :: cs ++ ".json".toList) with
      | false => rfl
      | true => exact absurd (json_not_prefix_of_short (c :: cs) h.1 hp) (by simp)
    rw [List.cons_append] at hnp ⊢
    unfold stringsReplaceFirst
    rw [hnp]
    simp only [Bool.false_eq_true, ↓reduceIte, List.cons_append, List.cons.injEq, true_and]
    exact ih h.2

/-! ## Sorting, decoding -/

theorem strLe_common (l x y : GoString) : strLe (l ++ x) (l ++ y) = strLe x y := by
  induction l with
  | nil => rfl
  | cons c l ih =>
    show (if c < c then true else if c < c then false else strLe (l ++ x) (l ++ y)) = _
    rw [if_neg (lt_irrefl c), if_neg (lt_irrefl c), ih]

theorem fieldFor_tags :
    fieldFor "name".toList = some .name ∧ fieldFor "uniqueId".toList = some .uniqueId ∧
    fieldFor "type".toList = some .type ∧ fieldFor "module".toList = some .module ∧
    fieldFor "maxAutoSaves".toList = some .maxAutoSaves ∧
    fieldFor "masterPageUniqueId".toList = some .masterPageUniqueId ∧
    fieldFor "isMasterPage".toList = some .isMasterPage ∧
    fieldFor "composerSettings".toList = some .composerSettings ∧
    fieldFor "body".toList = some .body := by
  decide

theorem decodeMember_tag (r : PullResponse) (k : GoString) (v : JVal) (f : Field)
    (h : fieldFor k = some f) : decodeMember r (k, v) = decodeField r f v := by
  unfold decodeMember
  rw [h]

theorem decode_toJSON (page : PullResponse)
    (hint : -(2 : Int) ^ 63 ≤ page.MaxAutoSaves ∧ page.MaxAutoSaves < (2 : Int) ^ 63) :
    (toJSON { page with Body := [] }).foldl decodeMember PullResponse.zero
      = { page with Body := [] } := by
  obtain ⟨f1, f2, f3, f4, f5, f6, f7, f8, f9⟩ := fieldFor_tags
  unfold toJSON
  cases hc : page.ComposerSettings <;> by_cases hm : page.MasterPageUniqueID = [] <;>
    simp only [hm, hc, ↓reduceIte, List.append_nil, List.cons_append, List.nil_append,
      List.foldl_cons, List.foldl_nil, decodeMember_tag _ _ _ _ f1, decodeMember_tag _ _ _ _ f2,
      decodeMember_tag _ _ _ _ f3, decodeMember_tag _ _ _ _ f4, decodeMember_tag _ _ _ _ f5,
      decodeMember_tag _ _ _ _ f6, decodeMember_tag _ _ _ _ f7, decodeMember_tag _ _ _ _ f8,
      decodeField, storeString, PullResponse.zero, hint, and_self]

theorem Unmarshal_MarshalIndent (J : JsonText) (page : PullResponse)
    (hJ : J.parse (J.render (toJSON { page with Body := [] }))
      = some (toJSON { page with Body := [] }))
    (hint : -(2 : Int) ^ 63 ≤ page.MaxAutoSaves ∧ page.MaxAutoSaves < (2 : Int) ^ 63) :
    Unmarshal J (MarshalIndent J { page with Body := [] }) PullResponse.zero
      = { page with Body := [] } := by
  unfold Unmarshal MarshalIndent
  rw [hJ]
  exact decode_toJSON page hint

/-! ## The elements of a cleaned path -/

theorem slash_toList : "/".toList = ['/'] := rfl

theorem splitOnP_no_sep (q : Char → Bool) (xs : List Char) :
    ∀ l ∈ xs.splitOnP q, ∀ c ∈ l, q c = false := by
  induction xs with
  | nil => simp
  | cons x xs ih =>
    intro l hl c hc
    rw [List.splitOnP_cons] at hl
    by_cases hq : q x = true
    · rw [if_pos hq] at hl
      rcases List.mem_cons.mp hl with rfl | hl
      · simp at hc
      · exact ih l hl c hc
    · rw [if_neg hq] at hl
      cases hs : xs.splitOnP q with
      | nil => rw [hs] at hl; simp [List.modifyHead] at hl
      | cons a as =>
        rw [hs] at hl ih
        simp only [List.modifyHead, List.mem_cons] at hl
        rcases hl with rfl | hl
        · rcases List.mem_cons.mp hc with rfl | hc
          · simpa using hq
          · exact ih a (List.mem_cons_self a as) c hc
        · exact ih l (List.mem_cons_of_mem a hl) c hc

theorem splitOnP_subset (q : Char → Bool) (xs : List Char) :
    ∀ l ∈ xs.splitOnP q, ∀ c ∈ l, c ∈ xs := by
  induction xs with
  | nil => simp
  | cons x xs ih =>
    intro l hl c hc
    rw [List.splitOnP_cons] at hl
    by_cases hq : q x = true
    · rw [if_pos hq] at hl
      rcases List.mem_cons.mp hl with rfl | hl
      · simp at hc
      · exact List.mem_cons_of_mem x (ih l hl c hc)
    · rw [if_neg hq] at hl
      cases hs : xs.splitOnP q with
      | nil => rw [hs] at hl; simp [List.modifyHead] at hl
      | cons a as =>
        rw [hs] at hl ih
        simp only [List.modifyHead, List.mem_cons] at hl
        rcases hl with rfl | hl
        · rcases List.mem_cons.mp hc with rfl | hc
          · exact List.mem_cons_self _ _
          · exact List.mem_cons_of_mem x (ih a (List.mem_cons_self a as) c hc)
        · exact List.mem_cons_of_mem x (ih l (List.mem_cons_of_mem a hl) c hc)

theorem splitOn_no_slash (xs : GoString) : ∀ l ∈ xs.splitOn '/', '/' ∉ l := by
  intro l hl hc
  have := splitOnP_no_sep (fun c => c == '/') xs l hl '/' hc
  simp at this

theorem splitOn_subset (xs : GoString) : ∀ l ∈ xs.splitOn '/', ∀ c ∈ l, c ∈ xs :=
  splitOnP_subset (fun c => c == '/') xs

theorem intercalate_snoc (segs : List GoString) (x : GoString) (hne : segs ≠ []) :
    ['/'].intercalate (segs ++ [x]) = ['/'].intercalate segs ++ '/' :: x := by
  induction segs with
  | nil => exact absurd rfl hne
  | cons a segs ih =>
    cases segs with
    | nil => simp [List.intercalate, List.intersperse, List.flatten]
    | cons b segs =>
      have := ih (by simp)
      simp only [List.intercalate, List.cons_append, List.intersperse_cons_cons,
        List.flatten_cons, List.append_assoc] at this ⊢
      rw [this]

theorem splitOn_append_element (p x : GoString) (hx : '/' ∉ x) :
    (p ++ '/' :: x).splitOn '/' = p.splitOn '/' ++ [x] := by
  have h1 : p ++ '/' :: x = ['/'].intercalate (p.splitOn '/' ++ [x]) := by
    have hne : p.splitOn '/' ≠ [] := List.splitOnP_ne_nil _ _
    rw [intercalate_snoc _ _ hne, List.intercalate_splitOn]
  rw [h1]
  apply List.splitOn_intercalate
  · intro l hl
    rcases List.mem_append.mp hl with hl | hl
    · exact splitOn_no_slash p l hl
    · rw [List.mem_singleton.mp hl]; exact hx
  · simp

theorem splitOn_rooted (q : GoString) : ('/' :: q).splitOn '/' = [] :: q.splitOn '/' := by
  simp [List.splitOn, List.splitOnP_cons]

theorem canonOut_nil (rooted : Bool) : canonOut rooted [] := by
  refine ⟨by simp, by simp, ?_⟩
  intro pre s post h
  simp at h

theorem canonOut_dropLast (rooted : Bool) (out : List GoString) (h : canonOut rooted out) :
    canonOut rooted out.dropLast := by
  obtain ⟨h1, h2, h3⟩ := h
  refine ⟨fun s hs => h1 s (List.dropLast_subset out hs),
    fun hr hd => h2 hr (List.dropLast_subset out hd), ?_⟩
  intro pre s post hd hs
  have hne : out ≠ [] := by
    intro h0
    rw [h0] at hd
    simp at hd
  have := List.dropLast_append_getLast hne
  rw [hd] at this
  exact h3 pre s (post ++ [out.getLast hne]) (by simpa using this.symm) hs

theorem canonOut_snoc_plain (rooted : Bool) (out : List GoString) (seg : GoString)
    (h : canonOut rooted out) (h0 : seg ≠ []) (h1 : seg ≠ ".".toList) (h2 : seg ≠ "..".toList)
    (hs : '/' ∉ seg) : canonOut rooted (out ++ [seg]) := by
  obtain ⟨c1, c2, c3⟩ := h
  refine ⟨?_, ?_, ?_⟩
  · intro s hm
    rcases List.mem_append.mp hm with hm | hm
    · exact c1 s hm
    · rw [List.mem_singleton.mp hm]; exact ⟨h0, h1, hs⟩
  · intro hr hm
    rcases List.mem_append.mp hm with hm | hm
    · exact c2 hr hm
    · exact h2 (List.mem_singleton.mp hm).symm
  · intro pre s post hd hdots
    rcases List.eq_nil_or_concat post with hp | ⟨post', z, hp⟩
    · subst hp
      have := List.append_inj' hd rfl
      have hs' : seg = s := by simpa using this.2
      exact absurd (hs'.trans hdots) h2
    · subst hp
      have hd' : out ++ [seg] = (pre ++ s :: post') ++ [z] := by rw [hd]; simp
      have := List.append_inj' hd' rfl
      exact c3 pre s post' this.1 hdots

theorem canonOut_snoc_dots (out : List GoString)
    (h : canonOut false out) (hall : ∀ t ∈ out, t = "..".toList) :
    canonOut false (out ++ ["..".toList]) := by
  obtain ⟨c1, -, -⟩ := h
  refine ⟨?_, by simp, ?_⟩
  · intro s hm
    rcases List.mem_append.mp hm with hm | hm
    · exact c1 s hm
    · rw [List.mem_singleton.mp hm]; decide
  · intro pre s post hd _ t ht
    have hsub : t ∈ out ++ ["..".toList] := by rw [hd]; exact List.mem_append_left _ ht
    rcases List.mem_append.mp hsub with hm | hm
    · exact hall t hm
    · exact List.mem_singleton.mp hm

theorem cleanStep_canon (rooted : Bool) (out : List GoString) (seg : GoString)
    (h : canonOut rooted out) (hs : '/' ∉ seg) : canonOut rooted (cleanStep rooted out seg) := by
  unfold cleanStep
  by_cases h0 : seg = [] ∨ seg = ".".toList
  · rw [if_pos h0]; exact h
  · rw [if_neg h0]
    by_cases h1 : seg = "..".toList
    · rw [if_pos h1]
      cases hl : out.getLast? with
      | none =>
        simp only
        cases rooted with
        | true => simpa using h
        | false =>
          have : out = [] := List.getLast?_eq_none_iff.mp hl
          subst this
          subst h1
          simpa using canonOut_snoc_dots [] h (by simp)
      | some l =>
        simp only
        by_cases h2 : l ≠ "..".toList
        · rw [if_pos h2]; exact canonOut_dropLast rooted out h
        · rw [if_neg h2]
          cases rooted with
          | true => simpa using h
          | false =>
            simp only [Bool.false_eq_true, ↓reduceIte]
            have hl2 : l = "..".toList := by simpa using h2
            obtain ⟨init, hinit⟩ : ∃ init, out = init ++ [l] := by
              have hne : out ≠ [] := by
                intro h0'; rw [h0'] at hl; simp at hl
              refine ⟨out.dropLast, ?_⟩
              have h5 := List.dropLast_append_getLast hne
              have h6 : out.getLast hne = l := by
                have := List.getLast?_eq_getLast out hne
                rw [hl] at this
                exact (Option.some.inj this).symm
              rw [h6] at h5
              exact h5.symm
            have hall : ∀ t ∈ out, t = "..".toList := by
              intro t ht
              rw [hinit] at ht
              rcases List.mem_append.mp ht with ht | ht
              · exact h.2.2 init l [] hinit hl2 t ht
              · rw [List.mem_singleton.mp ht]; exact hl2
            subst h1
            exact canonOut_snoc_dots out h hall
    · rw [if_neg h1]
      have h0' := not_or.mp h0
      exact canonOut_snoc_plain rooted out seg h h0'.1 h0'.2 h1 hs

theorem foldl_cleanStep_canon (rooted : Bool) (segs out : List GoString)
    (h : canonOut rooted out) (hs : ∀ s ∈ segs, '/' ∉ s) :
    canonOut rooted (segs.foldl (cleanStep rooted) out) := by
  induction segs generalizing out with
  | nil => exact h
  | cons s segs ih =>
    rw [List.foldl_cons]
    exact ih _ (cleanStep_canon rooted out s h (hs s (List.mem_cons_self s segs)))
      (fun t ht => hs t (List.mem_cons_of_mem s ht))

theorem cleanStep_next (rooted : Bool) (pre post : List GoString) (s : GoString)
    (h : canonOut rooted (pre ++ s :: post)) : cleanStep rooted pre s = pre ++ [s] := by
  obtain ⟨c1, c2, c3⟩ := h
  obtain ⟨h0, h1, -⟩ := c1 s (by simp)
  unfold cleanStep
  rw [if_neg (not_or.mpr ⟨h0, h1⟩)]
  by_cases h2 : s = "..".toList
  · rw [if_pos h2]
    have hr : rooted = false := by
      cases rooted with
      | false => rfl
      | true => exact absurd (by rw [← h2]; simp) (c2 rfl)
    subst hr
    cases hl : pre.getLast? with
    | none => simp
    | some l =>
      have hm : l ∈ pre := List.mem_of_getLast?_eq_some hl
      have := c3 pre s post rfl h2 l hm
      simp [this]
  · rw [if_neg h2]

theorem foldl_cleanStep_canonical (rooted : Bool) (l pre : List GoString)
    (h : canonOut rooted (pre ++ l)) : l.foldl (cleanStep rooted) pre = pre ++ l := by
  induction l generalizing pre with
  | nil => simp
  | cons s l ih =>
    rw [List.foldl_cons, cleanStep_next rooted pre l s h]
    have := ih (pre ++ [s]) (by simpa using h)
    simpa using this

/-! ## `Clean` is idempotent, and `Clean` of a path with one more element -/

theorem Clean_eq (path : GoString) (h : path ≠ []) :
    Clean path = renderPath (path.head? = some '/')
      ((path.splitOn '/').foldl (cleanStep (path.head? = some '/')) []) := by
  unfold Clean
  rw [if_neg h]

theorem cleanOut_canon (path : GoString) (rooted : Bool) :
    canonOut rooted ((path.splitOn '/').foldl (cleanStep rooted) []) :=
  foldl_cleanStep_canon rooted _ [] (canonOut_nil rooted) (splitOn_no_slash path)

theorem intercalate_ne_nil (out : List GoString) (hne : out ≠ [])
    (h : ∀ s ∈ out, s ≠ []) : ['/'].intercalate out ≠ [] := by
  cases out with
  | nil => exact absurd rfl hne
  | cons a out =>
    have ha := h a (List.mem_cons_self a out)
    cases out with
    | nil => simpa [List.intercalate, List.intersperse, List.flatten] using ha
    | cons b out =>
      simp only [List.intercalate, List.intersperse_cons_cons, List.flatten_cons, ne_eq,
        List.append_eq_nil, not_and]
      intro h0
      exact absurd h0 ha

theorem intercalate_head (out : List GoString) (hne : out ≠ [])
    (h : ∀ s ∈ out, s ≠ [] ∧ '/' ∉ s) : (['/'].intercalate out).head? ≠ some '/' := by
  cases out with
  | nil => exact absurd rfl hne
  | cons a out =>
    obtain ⟨ha, hs⟩ := h a (List.mem_cons_self a out)
    cases a with
    | nil => exact absurd rfl ha
    | cons c a =>
      have hc : c ≠ '/' := fun hc => hs (by rw [hc]; exact List.mem_cons_self _ _)
      cases out with
      | nil => simpa [List.intercalate, List.intersperse, List.flatten] using hc
      | cons b out =>
        simpa [List.intercalate, List.intersperse_cons_cons, List.flatten_cons] using hc

theorem renderPath_ne_nil (rooted : Bool) (out : List GoString) (h : canonOut rooted out) :
    renderPath rooted out ≠ [] := by
  unfold renderPath
  cases rooted with
  | true => simp
  | false =>
    simp only [Bool.false_eq_true, ↓reduceIte]
    by_cases h0 : out = []
    · rw [if_pos h0]; decide
    · rw [if_neg h0, slash_toList]
      exact intercalate_ne_nil out h0 (fun s hs => (h.1 s hs).1)

theorem renderPath_head (rooted : Bool) (out : List GoString) (h : canonOut rooted out) :
    decide ((renderPath rooted out).head? = some '/') = rooted := by
  unfold renderPath
  cases rooted with
  | true => simp
  | false =>
    simp only [Bool.false_eq_true, ↓reduceIte, decide_eq_false_iff_not]
    by_cases h0 : out = []
    · rw [if_pos h0]; decide
    · rw [if_neg h0, slash_toList]
      exact intercalate_head out h0 (fun s hs => ⟨(h.1 s hs).1, (h.1 s hs).2.2⟩)

theorem splitOn_intercalate_canon (rooted : Bool) (out : List GoString)
    (h : canonOut rooted out) (hne : out ≠ []) :
    (['/'].intercalate out).splitOn '/' = out :=
  List.splitOn_intercalate out '/' (fun l hl => (h.1 l hl).2.2) hne

theorem Clean_renderPath (rooted : Bool) (out : List GoString) (h : canonOut rooted out) :
    Clean (renderPath rooted out) = renderPath rooted out := by
  rw [Clean_eq _ (renderPath_ne_nil rooted out h), renderPath_head rooted out h]
  congr 1
  cases rooted with
  | true =>
    unfold renderPath
    simp only [↓reduceIte, slash_toList, splitOn_rooted, List.foldl_cons]
    have h0 : cleanStep true [] [] = [] := by decide
    rw [h0]
    by_cases hne : out = []
    · subst hne; decide
    · rw [splitOn_intercalate_canon true out h hne]
      simpa using foldl_cleanStep_canonical true out [] (by simpa using h)
  | false =>
    unfold renderPath
    simp only [Bool.false_eq_true, ↓reduceIte]
    by_cases hne : out = []
    · subst hne; decide
    · rw [if_neg hne, slash_toList, splitOn_intercalate_canon false out h hne]
      simpa using foldl_cleanStep_canonical false out [] (by simpa using h)

theorem Clean_idem (path : GoString) : Clean (Clean path) = Clean path := by
  by_cases h : path = []
  · subst h; decide
  · rw [Clean_eq path h]
    exact Clean_renderPath _ _ (cleanOut_canon path _)

theorem Clean_ne_nil (path : GoString) : Clean path ≠ [] := by
  by_cases h : path = []
  · subst h; decide
  · rw [Clean_eq path h]
    exact renderPath_ne_nil _ _ (cleanOut_canon path _)

theorem renderPath_snoc (rooted : Bool) (out : List GoString) (x : GoString)
    (h : canonOut rooted out) :
    renderPath rooted (out ++ [x]) = childOf (renderPath rooted out) x := by
  unfold renderPath childOf
  cases rooted with
  | true =>
    simp only [↓reduceIte, slash_toList]
    by_cases hne : out = []
    · subst hne
      simp [List.intercalate, List.intersperse, List.flatten]
    · have hI := intercalate_ne_nil out hne (fun s hs => (h.1 s hs).1)
      rw [intercalate_snoc out x hne]
      rw [if_neg (by
        intro hc
        exact absurd (List.cons.inj hc).1 (by decide)), if_neg (by
        intro hc
        have := (List.cons.inj hc).2
        exact hI this)]
      simp
  | false =>
    simp only [Bool.false_eq_true, ↓reduceIte, slash_toList]
    by_cases hne : out = []
    · subst hne
      simp [List.intercalate, List.intersperse, List.flatten]
    · rw [if_neg (by simp), if_neg hne, intercalate_snoc out x hne]
      have hd : ['/'].intercalate out ≠ ".".toList := by
        intro hc
        have hs := splitOn_intercalate_canon false out h hne
        rw [hc] at hs
        have h1 : out = [".".toList] := by rw [← hs]; decide
        exact (h.1 ".".toList (by rw [h1]; simp)).2.1 rfl
      have hr : ['/'].intercalate out ≠ ['/'] := by
        intro hc
        have := intercalate_head out hne (fun s hs => ⟨(h.1 s hs).1, (h.1 s hs).2.2⟩)
        rw [hc] at this
        exact this rfl
      rw [if_neg hd, if_neg hr]

theorem Clean_child (q x : GoString) (hq : q ≠ []) (hx : '/' ∉ x) (hpl : plainElement x) :
    Clean (q ++ '/' :: x) = childOf (Clean q) x := by
  have hhead : (q ++ '/' :: x).head? = q.head? := by
    cases q with
    | nil => exact absurd rfl hq
    | cons c q => rfl
  rw [Clean_eq _ (by simp), Clean_eq q hq, hhead, splitOn_append_element q x hx,
    List.foldl_append, List.foldl_cons, List.foldl_nil]
  have hc := cleanOut_canon q (decide (q.head? = some '/'))
  have hstep : cleanStep (decide (q.head? = some '/'))
      ((q.splitOn '/').foldl (cleanStep (decide (q.head? = some '/'))) []) x
      = (q.splitOn '/').foldl (cleanStep (decide (q.head? = some '/'))) [] ++ [x] := by
    unfold cleanStep
    rw [if_neg (not_or.mpr ⟨hpl.1, hpl.2.1⟩), if_neg hpl.2.2]
  rw [hstep]
  exact renderPath_snoc _ _ x hc

theorem Clean_root_child (x : GoString) (hx : '/' ∉ x) (hpl : plainElement x) :
    Clean ('/' :: x) = '/' :: x := by
  rw [Clean_eq _ (by simp)]
  have hs : x.splitOn '/' = [x] := by
    apply List.splitOnP_eq_single
    intro c hc hq
    exact hx (by rw [← eq_of_beq hq]; exact hc)
  simp only [List.head?_cons, decide_True, splitOn_rooted, hs, List.foldl_cons, List.foldl_nil]
  have h0 : cleanStep true [] [] = [] := by decide
  rw [h0]
  have hstep : cleanStep true [] x = [x] := by
    unfold cleanStep
    rw [if_neg (not_or.mpr ⟨hpl.1, hpl.2.1⟩), if_neg hpl.2.2]
    rfl
  rw [hstep]
  simp [renderPath, List.intercalate, List.intersperse, List.flatten]

theorem childOf_append (c x y : GoString) : childOf c (x ++ y) = childOf c x ++ y := by
  unfold childOf
  split_ifs <;> simp

theorem childOf_injective (c x y : GoString) (h : childOf c x = childOf c y) : x = y := by
  unfold childOf at h
  split_ifs at h
  · exact h
  · exact (List.cons.inj h).2
  · exact (List.cons.inj (List.append_cancel_left h)).2

theorem Split_no_slash (file : GoString) (h : '/' ∉ file) : Split file = ([], file) := by
  have h1 : (file.reverse.takeWhile (fun c => decide (c ≠ '/'))) = file.reverse := by
    rw [List.takeWhile_eq_self_iff]
    intro c hc
    have : c ≠ '/' := fun hc' => h (by rw [← hc']; exact List.mem_reverse.mp hc)
    simpa using this
  unfold Split
  simp only [h1, List.reverse_reverse, Nat.sub_self, List.take_zero]

theorem Split_childOf (c x : GoString) (hc : c ≠ []) (hx : '/' ∉ x) :
    cleanGlobPath (Split (childOf c x)).1 = c ∧ (Split (childOf c x)).2 = x := by
  unfold childOf
  by_cases h1 : c = ".".toList
  · rw [if_pos h1, Split_no_slash x hx, h1]
    exact ⟨rfl, rfl⟩
  · rw [if_neg h1]
    by_cases h2 : c = "/".toList
    · rw [if_pos h2, h2]
      have := Split_append [] x hx
      simp only [List.nil_append] at this
      rw [this]
      exact ⟨rfl, rfl⟩
    · rw [if_neg h2, Split_append c x hx]
      refine ⟨?_, rfl⟩
      unfold cleanGlobPath
      rw [if_neg (by simp), if_neg]
      · simp
      · intro h
        have := congrArg List.length h
        simp at this
        exact hc this

/-! ## The walk along a path -/

theorem walk_nil (fs : FS) (rooted : Bool) (out : List GoString) :
    walk fs rooted [] out = some out := rfl

theorem walk_cons (fs : FS) (rooted : Bool) (seg : GoString) (rest out : List GoString) :
    walk fs rooted (seg :: rest) out
      = if fs.isDirNode (renderPath rooted out) = true
          then walk fs rooted rest (cleanStep rooted out seg) else none := rfl

theorem cleanStep_cases (rooted : Bool) (out : List GoString) (seg : GoString) :
    cleanStep rooted out seg = out ∨ cleanStep rooted out seg = out.dropLast ∨
      cleanStep rooted out seg = out ++ [seg] := by
  unfold cleanStep
  by_cases h1 : seg = [] ∨ seg = ".".toList
  · rw [if_pos h1]; exact Or.inl rfl
  · rw [if_neg h1]
    by_cases h2 : seg = "..".toList
    · rw [if_pos h2]
      cases out.getLast? with
      | none =>
        cases rooted
        · exact Or.inr (Or.inr (by simp))
        · exact Or.inl (by simp)
      | some l =>
        by_cases h3 : l ≠ "..".toList
        · exact Or.inr (Or.inl (by simp only [if_pos h3]))
        · cases rooted
          · exact Or.inr (Or.inr (by simp only [if_neg h3]; simp))
          · exact Or.inl (by simp only [if_neg h3]; simp)
    · rw [if_neg h2]; exact Or.inr (Or.inr rfl)

theorem walk_eq_foldl (fs : FS) (rooted : Bool) (segs out o : List GoString)
    (h : walk fs rooted segs out = some o) : o = segs.foldl (cleanStep rooted) out := by
  induction segs generalizing out with
  | nil => simpa [walk] using h.symm
  | cons s segs ih =>
    unfold walk at h
    by_cases hd : fs.isDirNode (renderPath rooted out) = true
    · rw [if_pos hd] at h
      rw [List.foldl_cons]
      exact ih _ h
    · rw [if_neg hd] at h
      cases h

theorem walk_mono (fs fs' : FS) (rooted : Bool) (segs out o : List GoString)
    (hm : ∀ q, fs.isDirNode q = true → fs'.isDirNode q = true)
    (h : walk fs rooted segs out = some o) : walk fs' rooted segs out = some o := by
  induction segs generalizing out with
  | nil => simpa [walk] using h
  | cons s segs ih =>
    unfold walk at h ⊢
    by_cases hd : fs.isDirNode (renderPath rooted out) = true
    · rw [if_pos hd] at h
      rw [if_pos (hm _ hd)]
      exact ih _ h
    · rw [if_neg hd] at h
      cases h

theorem walk_append (fs : FS) (rooted : Bool) (a b out : List GoString) :
    walk fs rooted (a ++ b) out = (walk fs rooted a out).bind (fun o => walk fs rooted b o) := by
  induction a generalizing out with
  | nil => simp [walk_nil]
  | cons s a ih =>
    rw [List.cons_append, walk_cons, walk_cons]
    by_cases hd : fs.isDirNode (renderPath rooted out) = true
    · rw [if_pos hd, if_pos hd]
      exact ih _
    · rw [if_neg hd, if_neg hd]
      rfl

theorem ancestorsExist_nil (fs : FS) (rooted : Bool) : ancestorsExist fs rooted [] := by
  intro pre s post h
  simp at h

theorem ancestorsExist_dropLast (fs : FS) (rooted : Bool) (out : List GoString)
    (h : ancestorsExist fs rooted out) : ancestorsExist fs rooted out.dropLast := by
  intro pre s post hd
  have hne : out ≠ [] := by
    intro h0
    rw [h0] at hd
    simp at hd
  have := List.dropLast_append_getLast hne
  rw [hd] at this
  exact h pre s (post ++ [out.getLast hne]) (by simpa using this.symm)

theorem ancestorsExist_snoc (fs : FS) (rooted : Bool) (out : List GoString) (seg : GoString)
    (h : ancestorsExist fs rooted out) (hd : fs.isDirNode (renderPath rooted out) = true) :
    ancestorsExist fs rooted (out ++ [seg]) := by
  intro pre s post hdec
  rcases List.eq_nil_or_concat post with hp | ⟨post', z, hp⟩
  · subst hp
    have := List.append_inj' hdec rfl
    rw [← this.1]
    exact hd
  · subst hp
    have hd' : out ++ [seg] = (pre ++ s :: post') ++ [z] := by rw [hdec]; simp
    have := List.append_inj' hd' rfl
    exact h pre s post' this.1

theorem walk_ancestors (fs : FS) (rooted : Bool) (segs out o : List GoString)
    (ha : ancestorsExist fs rooted out) (h : walk fs rooted segs out = some o) :
    ancestorsExist fs rooted o := by
  induction segs generalizing out with
  | nil =>
    have : out = o := by simpa [walk] using h
    rw [← this]; exact ha
  | cons s segs ih =>
    unfold walk at h
    by_cases hd : fs.isDirNode (renderPath rooted out) = true
    · rw [if_pos hd] at h
      refine ih _ ?_ h
      rcases cleanStep_cases rooted out s with hc | hc | hc <;> rw [hc]
      · exact ha
      · exact ancestorsExist_dropLast fs rooted out ha
      · exact ancestorsExist_snoc fs rooted out s ha hd
    · rw [if_neg hd] at h
      cases h

theorem walk_canonical (fs : FS) (rooted : Bool) (l pre : List GoString)
    (hc : canonOut rooted (pre ++ l)) (ha : ancestorsExist fs rooted (pre ++ l)) :
    walk fs rooted l pre = some (pre ++ l) := by
  induction l generalizing pre with
  | nil => simp [walk]
  | cons s l ih =>
    unfold walk
    rw [if_pos (ha pre s l rfl), cleanStep_next rooted pre l s hc]
    have := ih (pre ++ [s]) (by simpa using hc) (by simpa using ha)
    simpa using this

theorem isDirNode_root (fs : FS) (rooted : Bool) : fs.isDirNode (renderPath rooted []) = true := by
  cases rooted
  · have h : renderPath false [] = ".".toList := rfl
    rw [h]
    simp [FS.isDirNode]
  · have h : renderPath true [] = "/".toList := rfl
    rw [h]
    simp [FS.isDirNode]

theorem locate_eq_Clean (fs : FS) (path q : GoString) (h : fs.locate path = some q) :
    q = Clean path := by
  unfold FS.locate at h
  by_cases h0 : path = []
  · rw [if_pos h0] at h; cases h
  · rw [if_neg h0] at h
    rw [Clean_eq path h0]
    cases hw : walk fs (decide (path.head? = some '/')) (path.splitOn '/') [] with
    | none => rw [hw] at h; cases h
    | some o =>
      rw [hw] at h
      have := walk_eq_foldl _ _ _ _ _ hw
      rw [← this]
      exact (Option.some.inj h).symm

theorem locate_ne_nil (fs : FS) (path q : GoString) (h : fs.locate path = some q) :
    path ≠ [] := by
  intro h0
  rw [h0] at h
  simp [FS.locate] at h

theorem locate_mono (fs fs' : FS) (path q : GoString)
    (hm : ∀ q, fs.isDirNode q = true → fs'.isDirNode q = true)
    (h : fs.locate path = some q) : fs'.locate path = some q := by
  unfold FS.locate at h ⊢
  by_cases h0 : path = []
  · rw [if_pos h0] at h; cases h
  · rw [if_neg h0] at h ⊢
    cases hw : walk fs (decide (path.head? = some '/')) (path.splitOn '/') [] with
    | none => rw [hw] at h; cases h
    | some o =>
      rw [hw] at h
      rw [walk_mono fs fs' _ _ _ _ hm hw]
      exact h

theorem isDirNode_congr (fs fs' : FS) (h : fs'.dirs = fs.dirs) (q : GoString) :
    fs'.isDirNode q = fs.isDirNode q := by
  unfold FS.isDirNode
  rw [h]

theorem locate_congr (fs fs' : FS) (h : fs'.dirs = fs.dirs) (path : GoString) :
    fs'.locate path = fs.locate path := by
  cases h1 : fs.locate path with
  | some q =>
    exact locate_mono fs fs' path q (fun q hq => by rw [isDirNode_congr fs fs' h]; exact hq) h1
  | none =>
    cases h2 : fs'.locate path with
    | none => rfl
    | some q =>
      have := locate_mono fs' fs path q
        (fun q hq => by rw [← isDirNode_congr fs fs' h]; exact hq) h2
      rw [h1] at this
      cases this

theorem locate_idem (fs : FS) (path q : GoString) (h : fs.locate path = some q) :
    fs.locate q = some q := by
  have hq := locate_eq_Clean fs path q h
  have h0 := locate_ne_nil fs path q h
  unfold FS.locate at h
  rw [if_neg h0] at h
  cases hw : walk fs (decide (path.head? = some '/')) (path.splitOn '/') [] with
  | none => rw [hw] at h; cases h
  | some o =>
    rw [hw] at h
    have hq2 : q = renderPath (decide (path.head? = some '/')) o := (Option.some.inj h).symm
    have hfold := walk_eq_foldl _ _ _ _ _ hw
    have hcanon : canonOut (decide (path.head? = some '/')) o := by
      rw [hfold]; exact cleanOut_canon path _
    have hanc := walk_ancestors fs _ _ [] o (ancestorsExist_nil fs _) hw
    generalize decide (path.head? = some '/') = rooted at hq2 hcanon hanc
    subst hq2
    unfold FS.locate
    rw [if_neg (renderPath_ne_nil rooted o hcanon), renderPath_head rooted o hcanon]
    have hwalk : walk fs rooted ((renderPath rooted o).splitOn '/') [] = some o := by
      cases rooted with
      | true =>
        unfold renderPath
        simp only [↓reduceIte, slash_toList, splitOn_rooted]
        unfold walk
        rw [if_pos (isDirNode_root fs true)]
        have h0 : cleanStep true [] [] = [] := by decide
        rw [h0]
        by_cases hne : o = []
        · subst hne
          have : ([] : GoString).splitOn '/' = [[]] := rfl
          simp only [List.intercalate, List.intersperse, List.flatten, this]
          unfold walk
          rw [if_pos (isDirNode_root fs true), h0]
          rfl
        · rw [splitOn_intercalate_canon true o hcanon hne]
          simpa using walk_canonical fs true o [] (by simpa using hcanon) (by simpa using hanc)
      | false =>
        unfold renderPath
        simp only [Bool.false_eq_true, ↓reduceIte]
        by_cases hne : o = []
        · subst hne
          simp only [↓reduceIte]
          have : ".".toList.splitOn '/' = [".".toList] := by decide
          rw [this]
          unfold walk
          rw [if_pos (isDirNode_root fs false)]
          have h0 : cleanStep false [] ".".toList = [] := by decide
          rw [h0]
          rfl
        · rw [if_neg hne, slash_toList, splitOn_intercalate_canon false o hcanon hne]
          simpa using walk_canonical fs false o [] (by simpa using hcanon) (by simpa using hanc)
    rw [hwalk]
    rfl

theorem locate_child (fs : FS) (p x : GoString) (hp : p ≠ []) (hx : '/' ∉ x)
    (hpl : plainElement x) :
    fs.locate (p ++ '/' :: x)
      = (fs.locate p).bind (fun c => if fs.isDirNode c = true then some (childOf c x) else none) := by
  have hhead : (p ++ '/' :: x).head? = p.head? := by
    cases p with
    | nil => exact absurd rfl hp
    | cons c q => rfl
  unfold FS.locate
  rw [if_neg (by simp), if_neg hp, hhead, splitOn_append_element p x hx, walk_append]
  cases hw : walk fs (decide (p.head? = some '/')) (p.splitOn '/') [] with
  | none => rfl
  | some o =>
    have hfold := walk_eq_foldl _ _ _ _ _ hw
    have hcanon : canonOut (decide (p.head? = some '/')) o := by
      rw [hfold]; exact cleanOut_canon p _
    simp only [Option.some_bind, Option.map_some']
    rw [walk_cons, walk_nil]
    by_cases hd : fs.isDirNode (renderPath (decide (p.head? = some '/')) o) = true
    · rw [if_pos hd, if_pos hd]
      have hstep : cleanStep (decide (p.head? = some '/')) o x = o ++ [x] := by
        unfold cleanStep
        rw [if_neg (not_or.mpr ⟨hpl.1, hpl.2.1⟩), if_neg hpl.2.2]
      rw [hstep]
      simp only [Option.map_some']
      rw [renderPath_snoc _ _ x hcanon]
    · rw [if_neg hd, if_neg hd]
      rfl

/-! ## Writing files -/

theorem find_putFile_same (p data : GoString) (l : List (GoString × File)) :
    ((putFile p data l).find? (fun e => decide (e.1 = p))).map (fun e => e.2.content)
      = some data := by
  induction l with
  | nil => simp [putFile]
  | cons e l ih =>
    by_cases h : e.1 = p
    · simp [putFile, h]
    · simp [putFile, h, List.find?_cons, ih]

theorem find_putFile_other (p q data : GoString) (l : List (GoString × File)) (h : q ≠ p) :
    (putFile p data l).find? (fun e => decide (e.1 = q))
      = l.find? (fun e => decide (e.1 = q)) := by
  induction l with
  | nil => simp [putFile, List.find?_cons, Ne.symm h]
  | cons e l ih =>
    unfold putFile
    by_cases h1 : e.1 = p
    · have h2 : ¬ e.1 = q := by rw [h1]; exact Ne.symm h
      rw [if_pos h1, List.find?_cons, List.find?_cons]
      simp [h2, Ne.symm h]
    · rw [if_neg h1, List.find?_cons, List.find?_cons, ih]

theorem WriteFile_ok_iff (fs fs' : FS) (p data : GoString) (h : WriteFile fs p data = .ok fs') :
    ∃ q, fs.locate p = some q ∧ fs.isDirNode q = false ∧
      fs' = { fs with files := putFile q data fs.files } := by
  unfold WriteFile at h
  cases hl : fs.locate p with
  | none => rw [hl] at h; cases h
  | some q =>
    rw [hl] at h
    simp only at h
    by_cases h1 : fs.isDirNode q = true
    · rw [if_pos h1] at h; cases h
    · rw [if_neg h1] at h
      cases h
      exact ⟨q, rfl, by simpa using h1, rfl⟩

theorem WriteFile_error (fs : FS) (p data : GoString) (e : Err)
    (h : WriteFile fs p data = .error e) : fs.file p = none := by
  unfold WriteFile at h
  unfold FS.file
  cases hl : fs.locate p with
  | none => rfl
  | some q =>
    rw [hl] at h
    simp only at h ⊢
    by_cases h1 : fs.isDirNode q = true
    · unfold FS.fileNode
      rw [if_pos h1]
    · rw [if_neg h1] at h; cases h

theorem WriteFile_content (fs fs' : FS) (p data : GoString) (h : WriteFile fs p data = .ok fs') :
    (fs'.file p).map File.content = some data := by
  obtain ⟨q, hl, hd, rfl⟩ := WriteFile_ok_iff fs fs' p data h
  have h1 := find_putFile_same q data fs.files
  unfold FS.file
  rw [locate_congr fs { fs with files := putFile q data fs.files } rfl p, hl]
  simp only
  unfold FS.fileNode
  rw [isDirNode_congr fs { fs with files := putFile q data fs.files } rfl q, hd]
  simp only [Bool.false_eq_true, ↓reduceIte, Option.map_map]
  exact h1

theorem WriteFile_other (fs fs' : FS) (p p' q q' data : GoString)
    (h : WriteFile fs p data = .ok fs') (hq : fs.locate p = some q)
    (hq' : fs.locate p' = some q') (hne : q' ≠ q) : fs'.file p' = fs.file p' := by
  obtain ⟨q0, hl, -, rfl⟩ := WriteFile_ok_iff fs fs' p data h
  rw [hq] at hl
  cases hl
  unfold FS.file
  rw [locate_congr fs { fs with files := putFile q data fs.files } rfl p', hq']
  simp only
  unfold FS.fileNode
  rw [isDirNode_congr fs { fs with files := putFile q data fs.files } rfl q']
  simp only
  rw [find_putFile_other q q' data fs.files hne]

theorem afterMkdir_cases (fs : FS) (p : GoString) :
    afterMkdir fs p = fs ∨
      ∃ q, fs.locate p = some q ∧ fs.nodeExists q = false ∧
        afterMkdir fs p = { fs with dirs := fs.dirs ++ [q] } := by
  unfold afterMkdir
  cases Stat fs p with
  | ok _ => exact Or.inl rfl
  | error _ =>
    simp only
    unfold Mkdir
    cases hl : fs.locate p with
    | none => exact Or.inl rfl
    | some q =>
      simp only
      by_cases h1 : fs.nodeExists q = true
      · rw [if_pos h1]; exact Or.inl rfl
      · rw [if_neg h1]; exact Or.inr ⟨q, rfl, by simpa using h1, rfl⟩

theorem afterMkdir_files (fs : FS) (path : GoString) : (afterMkdir fs path).files = fs.files := by
  rcases afterMkdir_cases fs path with h | ⟨q, -, -, h⟩ <;> rw [h]

theorem isDirNode_grow (fs : FS) (d q : GoString) (h : fs.isDirNode q = true) :
    ({ fs with dirs := fs.dirs ++ [d] } : FS).isDirNode q = true := by
  unfold FS.isDirNode at h ⊢
  simp only [Bool.or_eq_true, decide_eq_true_eq, List.mem_append, List.mem_singleton] at h ⊢
  rcases h with h | h
  · exact Or.inl h
  · exact Or.inr (Or.inl h)

theorem isDirNode_grow_iff (fs : FS) (d q : GoString)
    (h : ({ fs with dirs := fs.dirs ++ [d] } : FS).isDirNode q = true) :
    fs.isDirNode q = true ∨ q = d := by
  unfold FS.isDirNode at h ⊢
  simp only [Bool.or_eq_true, decide_eq_true_eq, List.mem_append, List.mem_singleton] at h ⊢
  rcases h with h | h | h
  · exact Or.inl (Or.inl h)
  · exact Or.inl (Or.inr h)
  · exact Or.inr h

theorem afterMkdir_isDirNode (fs : FS) (p q : GoString) (h : fs.isDirNode q = true) :
    (afterMkdir fs p).isDirNode q = true := by
  rcases afterMkdir_cases fs p with h1 | ⟨d, -, -, h1⟩ <;> rw [h1]
  · exact h
  · exact isDirNode_grow fs d q h

theorem WriteAtRest_ok (J : JsonText) (fs fs' : FS) (page : PullResponse) (path : GoString)
    (h : WriteAtRest J fs page path = (none, fs')) :
    ∃ fs2, WriteFile (afterMkdir fs path) (manifestPath path page)
              (MarshalIndent J { page with Body := [] }) = .ok fs2 ∧
      WriteFile fs2 (bodyPath path page) page.Body = .ok fs' := by
  unfold WriteAtRest at h
  simp only at h
  change (match WriteFile (afterMkdir fs path) _ _ with | .error err => _ | .ok fs2 => _) = _ at h
  cases h1 : WriteFile (afterMkdir fs path) (manifestPath path page)
      (MarshalIndent J { page with Body := [] }) with
  | error e => rw [h1] at h; simp at h
  | ok fs2 =>
    rw [h1] at h
    simp only at h
    cases h2 : WriteFile fs2 (bodyPath path page) page.Body with
    | error e => rw [h2] at h; simp at h
    | ok fs3 =>
      rw [h2] at h
      simp only [Prod.mk.injEq, true_and] at h
      subst h
      exact ⟨fs2, rfl, h2⟩

theorem WriteAtRest_cases (J : JsonText) (fs fs' : FS) (page : PullResponse) (path : GoString)
    (err : Option Err) (h : WriteAtRest J fs page path = (err, fs')) :
    (err ≠ none ∧ fs' = afterMkdir fs path ∧
      ∃ e, WriteFile (afterMkdir fs path) (manifestPath path page)
              (MarshalIndent J { page with Body := [] }) = .error e) ∨
    ∃ fs2, WriteFile (afterMkdir fs path) (manifestPath path page)
              (MarshalIndent J { page with Body := [] }) = .ok fs2 ∧
      ((err ≠ none ∧ fs' = fs2) ∨
        (err = none ∧ WriteFile fs2 (bodyPath path page) page.Body = .ok fs')) := by
  unfold WriteAtRest at h
  simp only at h
  change (match WriteFile (afterMkdir fs path) _ _ with | .error err => _ | .ok fs2 => _) = _ at h
  cases h1 : WriteFile (afterMkdir fs path) (manifestPath path page)
      (MarshalIndent J { page with Body := [] }) with
  | error e =>
    rw [h1] at h
    simp only [Prod.mk.injEq] at h
    exact Or.inl ⟨by rw [← h.1]; simp, h.2.symm, e, rfl⟩
  | ok fs2 =>
    rw [h1] at h
    simp only at h
    refine Or.inr ⟨fs2, rfl, ?_⟩
    cases h2 : WriteFile fs2 (bodyPath path page) page.Body with
    | error e =>
      rw [h2] at h
      simp only [Prod.mk.injEq] at h
      exact Or.inl ⟨by rw [← h.1]; simp, h.2.symm⟩
    | ok fs3 =>
      rw [h2] at h
      simp only [Prod.mk.injEq] at h
      exact Or.inr ⟨h.1.symm, by rw [← h.2]⟩

/-! ## The two files of a record have different names -/

theorem last_slash (s : GoString) (h : '/' ∈ s) :
    ∃ pre last, s = pre ++ '/' :: last ∧ '/' ∉ last := by
  induction s with
  | nil => simp at h
  | cons c s ih =>
    by_cases hs : '/' ∈ s
    · obtain ⟨pre, last, he, hl⟩ := ih hs
      exact ⟨c :: pre, last, by rw [he]; rfl, hl⟩
    · have hc : c = '/' := by
        rcases List.mem_cons.mp h with h | h
        · exact h.symm
        · exact absurd h hs
      exact ⟨[], s, by rw [hc]; rfl, hs⟩

theorem plainElement_with_ext (b ext : GoString) (h : 3 ≤ ext.length) :
    plainElement (b ++ ext) := by
  have e1 : ".".toList = ['.'] := rfl
  have e2 : "..".toList = ['.', '.'] := rfl
  refine ⟨?_, ?_, ?_⟩
  · intro h1
    have := congrArg List.length h1
    simp only [List.length_append, List.length_nil] at this
    omega
  · intro h1
    have := congrArg List.length h1
    rw [e1] at this
    simp only [List.length_append, List.length_cons, List.length_nil] at this
    omega
  · intro h1
    have := congrArg List.length h1
    rw [e2] at this
    simp only [List.length_append, List.length_cons, List.length_nil] at this
    omega

theorem Clean_last_element (pre x : GoString) (hx : '/' ∉ x) (hpl : plainElement x) :
    ∃ c, Clean (pre ++ '/' :: x) = childOf c x := by
  by_cases hp : pre = []
  · subst hp
    refine ⟨"/".toList, ?_⟩
    rw [List.nil_append, Clean_root_child x hx hpl]
    rfl
  · exact ⟨Clean pre, Clean_child pre x hp hx hpl⟩

theorem Clean_last_element_pair (pre x y : GoString) (hx : '/' ∉ x) (hy : '/' ∉ y)
    (hpx : plainElement x) (hpy : plainElement y) (hne : x ≠ y) :
    Clean (pre ++ '/' :: x) ≠ Clean (pre ++ '/' :: y) := by
  by_cases hp : pre = []
  · subst hp
    rw [List.nil_append, List.nil_append, Clean_root_child x hx hpx, Clean_root_child y hy hpy]
    intro h
    exact hne (List.cons.inj h).2
  · rw [Clean_child pre x hp hx hpx, Clean_child pre y hp hy hpy]
    intro h
    exact hne (childOf_injective _ _ _ h)

theorem Clean_manifest_ne_body (path : GoString) (page : PullResponse) :
    Clean (manifestPath path page) ≠ Clean (bodyPath path page) := by
  have hs : '/' ∈ path ++ "/".toList ++ FileBasename page := by
    simp [slash_toList]
  obtain ⟨pre, last, he, hl⟩ := last_slash _ hs
  have hm : manifestPath path page = pre ++ '/' :: (last ++ ".json".toList) := by
    unfold manifestPath
    rw [he]
    simp
  have hb : bodyPath path page = pre ++ '/' :: (last ++ ".xml".toList) := by
    unfold bodyPath
    rw [he]
    simp
  rw [hm, hb]
  apply Clean_last_element_pair
  · intro h
    rcases List.mem_append.mp h with h | h
    · exact hl h
    · revert h; decide
  · intro h
    rcases List.mem_append.mp h with h | h
    · exact hl h
    · revert h; decide
  · exact plainElement_with_ext _ _ (by decide)
  · exact plainElement_with_ext _ _ (by decide)
  · intro h
    have := List.append_cancel_left h
    revert this
    decide

/-- Whatever the outcome of `WriteAtRest`, the manifest file holds the
serialisation of the record without body, or the call failed and the file is
as it was. -/
theorem WriteAtRest_manifest_file (J : JsonText) (fs fs' : FS) (page : PullResponse)
    (path : GoString) (err : Option Err) (h : WriteAtRest J fs page path = (err, fs')) :
    (fs'.file (manifestPath path page)).map File.content
        = some (J.render (toJSON { page with Body := [] })) ∨
      (err ≠ none ∧ fs'.file (manifestPath path page) = fs.file (manifestPath path page)) := by
  rcases WriteAtRest_cases J fs fs' page path err h with ⟨he, hfs, e, hfail⟩ | ⟨fs2, h1, h2⟩
  · right
    refine ⟨he, ?_⟩
    rw [hfs, WriteFile_error _ _ _ e hfail]
    -- the file was not there before either
    cases hf : fs.file (manifestPath path page) with
    | none => rfl
    | some f =>
      exfalso
      unfold FS.file at hf
      cases hl : fs.locate (manifestPath path page) with
      | none => rw [hl] at hf; cases hf
      | some qm =>
        rw [hl] at hf
        simp only at hf
        have hl1 : (afterMkdir fs path).locate (manifestPath path page) = some qm :=
          locate_mono fs _ _ qm (fun q hq => afterMkdir_isDirNode fs path q hq) hl
        have hnd : fs.isDirNode qm = false := by
          cases hd : fs.isDirNode qm with
          | false => rfl
          | true =>
            unfold FS.fileNode at hf
            rw [hd] at hf
            simp at hf
        unfold WriteFile at hfail
        rw [hl1] at hfail
        simp only at hfail
        by_cases hd1 : (afterMkdir fs path).isDirNode qm = true
        · rcases afterMkdir_cases fs path with h0 | ⟨d, -, hex, h0⟩
          · rw [h0, hnd] at hd1
            cases hd1
          · rw [h0] at hd1
            rcases isDirNode_grow_iff fs d qm hd1 with h3 | h3
            · rw [hnd] at h3; cases h3
            · subst h3
              unfold FS.nodeExists at hex
              rw [hf] at hex
              simp at hex
        · rw [if_neg hd1] at hfail
          cases hfail
  · left
    rcases h2 with ⟨-, hfs⟩ | ⟨-, h2⟩
    · rw [hfs]
      exact WriteFile_content _ fs2 _ _ h1
    · have hc := WriteFile_content _ fs2 _ _ h1
      obtain ⟨qm, hlm, -, hfs2⟩ := WriteFile_ok_iff _ _ _ _ h1
      obtain ⟨qb, hlb, -, -⟩ := WriteFile_ok_iff _ _ _ _ h2
      have hlm2 : fs2.locate (manifestPath path page) = some qm := by
        have hd : fs2.dirs = (afterMkdir fs path).dirs := by rw [hfs2]
        exact (locate_congr (afterMkdir fs path) fs2 hd _).trans hlm
      have hne : qm ≠ qb := by
        rw [locate_eq_Clean _ _ _ hlm2, locate_eq_Clean _ _ _ hlb]
        exact Clean_manifest_ne_body path page
      rw [WriteFile_other fs2 fs' _ _ qb qm _ h2 hlb hlm2 hne]
      exact hc

/-! ## `Match` on patterns without brackets and escapes -/

theorem simplePattern_cons (c : Char) (l : GoString) (h : simplePattern (c :: l)) :
    (c ≠ '[' ∧ c ≠ '\\') ∧ simplePattern l :=
  ⟨h c (List.mem_cons_self c l), fun d hd => h d (List.mem_cons_of_mem c hd)⟩

theorem simplePattern_append (a b : GoString) :
    simplePattern (a ++ b) ↔ simplePattern a ∧ simplePattern b := by
  unfold simplePattern
  constructor
  · intro h
    exact ⟨fun c hc => h c (List.mem_append_left _ hc), fun c hc => h c (List.mem_append_right _ hc)⟩
  · intro h c hc
    rcases List.mem_append.mp hc with hc | hc
    · exact h.1 c hc
    · exact h.2 c hc

theorem matchChunkLoop_failed (chunk : GoString) (h : simplePattern chunk) :
    ∀ (fuel : Nat) (s : GoString), chunk.length < fuel →
      matchChunkLoop fuel chunk s true = .ok none := by
  induction chunk with
  | nil =>
    intro fuel s hf
    cases fuel with
    | zero => omega
    | succ fuel => simp [matchChunkLoop]
  | cons c chunk ih =>
    intro fuel s hf
    obtain ⟨⟨h3, h4⟩, hrest⟩ := simplePattern_cons c chunk h
    cases fuel with
    | zero => omega
    | succ fuel =>
      have hf' : chunk.length < fuel := by simpa using hf
      unfold matchChunkLoop
      simp only [Bool.true_or, h3, h4, ↓reduceIte]
      by_cases h2 : c = '?'
      · rw [if_pos h2]
        exact ih hrest fuel s hf'
      · rw [if_neg h2]
        exact ih hrest fuel s hf'

theorem matchChunkLoop_cases (chunk : GoString) (h : simplePattern chunk) :
    ∀ (fuel : Nat) (s : GoString), chunk.length < fuel →
      matchChunkLoop fuel chunk s false = .ok none ∨
        matchChunkLoop fuel chunk s false = .ok (some (s.drop chunk.length)) := by
  induction chunk with
  | nil =>
    intro fuel s hf
    cases fuel with
    | zero => omega
    | succ fuel => right; simp [matchChunkLoop]
  | cons c chunk ih =>
    intro fuel s hf
    obtain ⟨⟨h3, h4⟩, hrest⟩ := simplePattern_cons c chunk h
    cases fuel with
    | zero => omega
    | succ fuel =>
      have hf' : chunk.length < fuel := by simpa using hf
      unfold matchChunkLoop
      simp only [Bool.false_or, h3, h4, ↓reduceIte]
      cases s with
      | nil =>
        left
        simp only [List.isEmpty_nil, ↓reduceIte, Bool.true_or]
        by_cases h2 : c = '?'
        · rw [if_pos h2]; exact matchChunkLoop_failed chunk hrest fuel [] hf'
        · rw [if_neg h2]; exact matchChunkLoop_failed chunk hrest fuel [] hf'
      | cons d ds =>
        simp only [List.isEmpty_cons, Bool.false_eq_true, ↓reduceIte, List.tail_cons,
          List.head?_cons, Bool.false_or, List.length_cons, List.drop_succ_cons]
        by_cases h2 : c = '?'
        · rw [if_pos h2]
          by_cases hd : d = '/'
          · left
            have : decide (some d = some '/') = true := by simpa using hd
            rw [this]
            exact matchChunkLoop_failed chunk hrest fuel ds hf'
          · have : decide (some d = some '/') = false := by simpa using hd
            rw [this]
            exact ih hrest fuel ds hf'
        · rw [if_neg h2]
          by_cases hd : d = c
          · have : decide (some d ≠ some c) = false := by simpa using hd
            rw [this]
            exact ih hrest fuel ds hf'
          · left
            have : decide (some d ≠ some c) = true := by simpa using hd
            rw [this]
            exact matchChunkLoop_failed chunk hrest fuel ds hf'

theorem matchChunkLoop_self (chunk : GoString) (h : simplePattern chunk) :
    ∀ (fuel : Nat) (rest : GoString), chunk.length < fuel →
      matchChunkLoop fuel chunk (chunk ++ rest) false = .ok (some rest) := by
  induction chunk with
  | nil =>
    intro fuel s hf
    cases fuel with
    | zero => omega
    | succ fuel => simp [matchChunkLoop]
  | cons c chunk ih =>
    intro fuel rest hf
    obtain ⟨⟨h3, h4⟩, hrest⟩ := simplePattern_cons c chunk h
    cases fuel with
    | zero => omega
    | succ fuel =>
      have hf' : chunk.length < fuel := by simpa using hf
      unfold matchChunkLoop
      simp only [Bool.false_or, h3, h4, ↓reduceIte, List.cons_append, List.isEmpty_cons,
        Bool.false_eq_true, List.tail_cons, List.head?_cons]
      by_cases h2 : c = '?'
      · rw [if_pos h2]
        have : decide (some c = some '/') = false := by rw [h2]; decide
        rw [this]
        exact ih hrest fuel rest hf'
      · rw [if_neg h2]
        have : decide (some c ≠ some c) = false := by simp
        rw [this]
        exact ih hrest fuel rest hf'

theorem matchChunk_cases (chunk s : GoString) (h : simplePattern chunk) :
    matchChunk chunk s = .ok none ∨ matchChunk chunk s = .ok (some (s.drop chunk.length)) :=
  matchChunkLoop_cases chunk h _ s (Nat.lt_succ_self _)

theorem matchChunk_self (chunk rest : GoString) (h : simplePattern chunk) :
    matchChunk chunk (chunk ++ rest) = .ok (some rest) :=
  matchChunkLoop_self chunk h _ rest (Nat.lt_succ_self _)

theorem starLoop_cases (chunk : GoString) (isLast : Bool) (h : simplePattern chunk)
    (name : GoString) :
    starLoop chunk isLast name = .ok none ∨ ∃ t, starLoop chunk isLast name = .ok (some t) := by
  induction name with
  | nil => left; rfl
  | cons c rest ih =>
    unfold starLoop
    by_cases hc : c = '/'
    · rw [if_pos hc]; left; rfl
    · rw [if_neg hc]
      rcases matchChunk_cases chunk rest h with hm | hm <;> rw [hm] <;> simp only
      · exact ih
      · by_cases hl : isLast = true ∧ rest.drop chunk.length ≠ []
        · rw [if_pos hl]; exact ih
        · rw [if_neg hl]; exact Or.inr ⟨_, rfl⟩

/-- After a star, the chunk is found at or before any place where it occurs. -/
theorem starLoop_finds (chunk : GoString) (h : simplePattern chunk) (A B : GoString)
    (hA : '/' ∉ A) (hne : A ≠ []) :
    ∃ j, j ≤ A.length ∧
      starLoop chunk false (A ++ (chunk ++ B))
        = .ok (some ((A ++ (chunk ++ B)).drop (j + chunk.length))) := by
  induction A with
  | nil => exact absurd rfl hne
  | cons a A ih =>
    have ha : a ≠ '/' := fun e => hA (by rw [e]; exact List.mem_cons_self _ _)
    have hA' : '/' ∉ A := fun e => hA (List.mem_cons_of_mem a e)
    rw [List.cons_append]
    unfold starLoop
    rw [if_neg ha]
    rcases matchChunk_cases chunk (A ++ (chunk ++ B)) h with hm | hm
    · rw [hm]
      simp only
      by_cases hA0 : A = []
      · subst hA0
        rw [List.nil_append, matchChunk_self chunk B h] at hm
        cases hm
      · obtain ⟨j, hj, hs⟩ := ih hA' hA0
        refine ⟨j + 1, by simpa using hj, ?_⟩
        rw [hs]
        have : j + 1 + chunk.length = (j + chunk.length) + 1 := by omega
        rw [this, List.drop_succ_cons]
    · rw [hm]
      simp only [Bool.false_eq_true, false_and, ↓reduceIte]
      refine ⟨1, by simp, ?_⟩
      have : 1 + chunk.length = chunk.length + 1 := by omega
      rw [this, List.drop_succ_cons]

/-! ### Scanning a chunk -/

theorem scanLoop_simple (s : GoString) (h : simplePattern s) :
    scanLoop s false false
      = (s.takeWhile (fun c => decide (c ≠ '*')), s.dropWhile (fun c => decide (c ≠ '*'))) := by
  induction s with
  | nil => rfl
  | cons c s ih =>
    obtain ⟨⟨h3, h4⟩, hrest⟩ := simplePattern_cons c s h
    have ih' := ih hrest
    unfold scanLoop
    simp only [Bool.false_eq_true, ↓reduceIte, h3, h4, and_true]
    by_cases hs : c = '*'
    · have hb : ¬ c = ']' := by rw [hs]; decide
      simp [hs]
    · by_cases hb : c = ']'
      · simp [hb, ih']
      · simp [hb, hs, ih']

theorem takeWhile_subset {α : Type} (p : α → Bool) (l : List α) : ∀ x ∈ l.takeWhile p, x ∈ l :=
  fun _ hx => (List.takeWhile_sublist p).subset hx

theorem dropWhile_subset {α : Type} (p : α → Bool) (l : List α) : ∀ x ∈ l.dropWhile p, x ∈ l :=
  fun _ hx => (List.dropWhile_sublist p).subset hx

theorem dropWhile_length_le {α : Type} (p : α → Bool) (l : List α) :
    (l.dropWhile p).length ≤ l.length :=
  (List.dropWhile_sublist p).length_le

/-- The chunk and the rest that `scanChunk` cuts from a simple pattern are
simple, and the rest is shorter than a pattern that is not empty. -/
theorem scanChunk_simple (pattern : GoString) (h : simplePattern pattern) :
    simplePattern (scanChunk pattern).2.1 ∧ simplePattern (scanChunk pattern).2.2 ∧
      (pattern ≠ [] → (scanChunk pattern).2.2.length < pattern.length) := by
  have hd : simplePattern (pattern.dropWhile (fun c => decide (c = '*'))) :=
    fun c hc => h c (dropWhile_subset _ _ c hc)
  unfold scanChunk
  simp only
  rw [scanLoop_simple _ hd]
  refine ⟨fun c hc => hd c (takeWhile_subset _ _ c hc),
    fun c hc => hd c (dropWhile_subset _ _ c hc), ?_⟩
  intro hne
  cases pattern with
  | nil => exact absurd rfl hne
  | cons c rest =>
    by_cases hc : c = '*'
    · simp only [List.dropWhile_cons, hc, decide_True, ↓reduceIte, List.length_cons]
      have h1 := dropWhile_length_le (fun c => decide (c ≠ '*'))
        (rest.dropWhile (fun c => decide (c = '*')))
      have h2 := dropWhile_length_le (fun c => decide (c = '*')) rest
      omega
    · have e1 : (c :: rest).dropWhile (fun c => decide (c = '*')) = c :: rest := by
        simp [List.dropWhile_cons, hc]
      rw [e1]
      have e2 : (c :: rest).dropWhile (fun c => decide (c ≠ '*'))
          = rest.dropWhile (fun c => decide (c ≠ '*')) := by
        simp [List.dropWhile_cons, hc]
      rw [e2]
      have h1 := dropWhile_length_le (fun c => decide (c ≠ '*')) rest
      simp only [List.length_cons]
      omega

theorem checkRest_simple (fuel : Nat) (pattern : GoString) (h : simplePattern pattern) :
    checkRest fuel pattern = .ok () := by
  induction fuel generalizing pattern with
  | zero => rfl
  | succ fuel ih =>
    unfold checkRest
    by_cases hp : pattern = []
    · rw [if_pos hp]
    · rw [if_neg hp]
      obtain ⟨h1, h2, -⟩ := scanChunk_simple pattern h
      simp only
      rcases matchChunk_cases (scanChunk pattern).2.1 [] h1 with hm | hm <;> rw [hm] <;>
        exact ih _ h2

/-- The function `Match` reports no malformed pattern when the pattern has no bracket and
no escape. -/
theorem matchLoop_simple (fuel : Nat) (pattern name : GoString) (h : simplePattern pattern)
    (hf : pattern.length < fuel) : ∃ b, matchLoop fuel pattern name = .ok b := by
  induction fuel generalizing pattern name with
  | zero => omega
  | succ fuel ih =>
    unfold matchLoop
    by_cases hp : pattern = []
    · rw [if_pos hp]; exact ⟨_, rfl⟩
    · rw [if_neg hp]
      obtain ⟨h1, h2, h3⟩ := scanChunk_simple pattern h
      have hlen : (scanChunk pattern).2.2.length < fuel := by
        have := h3 hp
        omega
      simp only
      by_cases hs : (scanChunk pattern).1 = true ∧ (scanChunk pattern).2.1 = []
      · rw [if_pos hs]; exact ⟨_, rfl⟩
      · rw [if_neg hs]
        have hfb : ∃ b,
            (match (if (scanChunk pattern).1 = true
                then starLoop (scanChunk pattern).2.1 (decide ((scanChunk pattern).2.2 = [])) name
                else .ok none : Except Err (Option GoString)) with
              | .error e => (.error e : Except Err Bool)
              | .ok (some t) => matchLoop fuel (scanChunk pattern).2.2 t
              | .ok none =>
                match checkRest ((scanChunk pattern).2.2.length + 1) (scanChunk pattern).2.2 with
                | .error e => .error e
                | .ok _ => .ok false) = .ok b := by
          by_cases hst : (scanChunk pattern).1 = true
          · rw [if_pos hst]
            rcases starLoop_cases (scanChunk pattern).2.1 (decide ((scanChunk pattern).2.2 = []))
              h1 name with hn | ⟨t, ht⟩
            · rw [hn]
              simp only
              rw [checkRest_simple _ _ h2]
              exact ⟨_, rfl⟩
            · rw [ht]
              exact ih _ t h2 hlen
          · rw [if_neg hst]
            simp only
            rw [checkRest_simple _ _ h2]
            exact ⟨_, rfl⟩
        rcases matchChunk_cases (scanChunk pattern).2.1 name h1 with hm | hm
        · rw [hm]
          exact hfb
        · rw [hm]
          simp only
          by_cases hc : name.drop (scanChunk pattern).2.1.length = [] ∨ (scanChunk pattern).2.2 ≠ []
          · rw [if_pos hc]
            exact ih _ _ h2 hlen
          · rw [if_neg hc]
            exact hfb

theorem Match_simple (pattern name : GoString) (h : simplePattern pattern) :
    ∃ b, Match pattern name = .ok b :=
  matchLoop_simple _ pattern name h (Nat.lt_succ_self _)

/-! ### A pattern that ends in a star matches the names it is a prefix of -/

theorem dropWhile_head {α : Type} (p : α → Bool) (l : List α) (x : α)
    (h : (l.dropWhile p).head? = some x) : p x = false := by
  induction l with
  | nil => simp at h
  | cons a l ih =>
    rw [List.dropWhile_cons] at h
    by_cases ha : p a = true
    · rw [if_pos ha] at h; exact ih h
    · rw [if_neg ha] at h
      simp only [List.head?_cons, Option.some.injEq] at h
      rw [← h]
      simpa using ha

theorem dropWhile_append_ne {α : Type} (p : α → Bool) (l m : List α)
    (h : l.dropWhile p ≠ []) : (l ++ m).dropWhile p = l.dropWhile p ++ m := by
  induction l with
  | nil => simp at h
  | cons a l ih =>
    rw [List.cons_append, List.dropWhile_cons, List.dropWhile_cons]
    rw [List.dropWhile_cons] at h
    by_cases ha : p a = true
    · rw [if_pos ha] at h ⊢
      rw [if_pos ha]
      exact ih h
    · rw [if_neg ha, if_neg ha]
      rfl

theorem dropWhile_append_nil {α : Type} (p : α → Bool) (l m : List α)
    (h : l.dropWhile p = []) : (l ++ m).dropWhile p = m.dropWhile p := by
  induction l with
  | nil => rfl
  | cons a l ih =>
    rw [List.dropWhile_cons] at h
    by_cases ha : p a = true
    · rw [if_pos ha] at h
      rw [List.cons_append, List.dropWhile_cons, if_pos ha]
      exact ih h
    · rw [if_neg ha] at h
      cases h

theorem takeWhile_snoc_stop {α : Type} (p : α → Bool) (l : List α) (x : α) (hx : p x = false) :
    (l ++ [x]).takeWhile p = l.takeWhile p := by
  induction l with
  | nil => simp [List.takeWhile, hx]
  | cons a l ih =>
    rw [List.cons_append, List.takeWhile_cons, List.takeWhile_cons, ih]

theorem dropWhile_snoc_stop {α : Type} (p : α → Bool) (l : List α) (x : α) (hx : p x = false) :
    (l ++ [x]).dropWhile p = l.dropWhile p ++ [x] := by
  induction l with
  | nil => simp [List.dropWhile, hx]
  | cons a l ih =>
    rw [List.cons_append, List.dropWhile_cons, List.dropWhile_cons, ih]
    by_cases ha : p a = true
    · rw [if_pos ha, if_pos ha]
    · rw [if_neg ha, if_neg ha]
      rfl

theorem dropWhile_nil_head {α : Type} (p : α → Bool) (l : List α) (x : α)
    (h : l.dropWhile p = []) (hx : p x = true) : ∀ y, (l ++ [x]).head? = some y → p y = true := by
  intro y hy
  cases l with
  | nil =>
    simp only [List.nil_append, List.head?_cons, Option.some.injEq] at hy
    rw [← hy]; exact hx
  | cons a l =>
    simp only [List.cons_append, List.head?_cons, Option.some.injEq] at hy
    rw [← hy]
    rw [List.dropWhile_cons] at h
    by_cases ha : p a = true
    · exact ha
    · rw [if_neg ha] at h; cases h

/-- The scan of a simple pattern `Q*` whose `Q` consists of stars only. -/
theorem scanChunk_all_stars (Q : GoString)
    (h : Q.dropWhile (fun c => decide (c = '*')) = []) :
    scanChunk (Q ++ ['*']) = (true, [], []) := by
  unfold scanChunk
  simp only
  rw [dropWhile_append_nil _ Q ['*'] h]
  have hh : (Q ++ ['*']).head? = some '*' := by
    cases hq : (Q ++ ['*']).head? with
    | none => simp at hq
    | some y =>
      have := dropWhile_nil_head (fun c => decide (c = '*')) Q '*' h (by simp) y hq
      simp only [decide_eq_true_eq] at this
      rw [this]
  rw [hh]
  simp [scanLoop]

/-- The scan of a simple pattern `Q*` whose `Q` holds a chunk. -/
theorem scanChunk_with_chunk (Q : GoString) (hs : simplePattern Q)
    (h : Q.dropWhile (fun c => decide (c = '*')) ≠ []) :
    scanChunk (Q ++ ['*'])
      = (decide ((Q ++ ['*']).head? = some '*'),
          (Q.dropWhile (fun c => decide (c = '*'))).takeWhile (fun c => decide (c ≠ '*')),
          (Q.dropWhile (fun c => decide (c = '*'))).dropWhile (fun c => decide (c ≠ '*'))
            ++ ['*']) := by
  have hsimple : simplePattern (Q.dropWhile (fun c => decide (c = '*')) ++ ['*']) := by
    rw [simplePattern_append]
    refine ⟨fun c hc => hs c (dropWhile_subset _ _ c hc), ?_⟩
    intro c hc
    rw [List.mem_singleton.mp hc]
    decide
  unfold scanChunk
  simp only
  rw [dropWhile_append_ne _ Q ['*'] h, scanLoop_simple _ hsimple,
    takeWhile_snoc_stop _ _ '*' (by simp), dropWhile_snoc_stop _ _ '*' (by simp)]

theorem not_contains_slash (name : GoString) (h : '/' ∉ name) : name.contains '/' = false := by
  rw [List.contains_eq_any_beq, List.any_eq_false]
  intro c hc
  have : '/' ≠ c := fun e => h (e ▸ hc)
  simpa using this

theorem drop_subset {α : Type} (n : Nat) (l : List α) : ∀ x ∈ l.drop n, x ∈ l :=
  fun _ hx => (List.drop_sublist n l).subset hx

theorem matchLoop_self (n : Nat) : ∀ (Q : GoString), Q.length ≤ n → simplePattern Q →
    ∀ (fuel : Nat) (Y tail : GoString), Q.length + 1 < fuel → '/' ∉ Y ++ (Q ++ tail) →
      (Y = [] ∨ (Q ++ ['*']).head? = some '*') →
      matchLoop fuel (Q ++ ['*']) (Y ++ (Q ++ tail)) = .ok true := by
  induction n with
  | zero =>
    intro Q hn _ fuel Y tail hf hsl _
    have hQ : Q = [] := List.length_eq_zero.mp (Nat.le_zero.mp hn)
    subst hQ
    cases fuel with
    | zero => omega
    | succ fuel =>
      unfold matchLoop
      rw [if_neg (by simp)]
      simp only [List.nil_append]
      have hsc : scanChunk ['*'] = (true, [], []) := by decide
      rw [if_pos ⟨by rw [hsc], by rw [hsc]⟩, not_contains_slash _ (by simpa using hsl)]
      rfl
  | succ n ih =>
    intro Q hn hs fuel Y tail hf hsl hY
    cases fuel with
    | zero => omega
    | succ fuel =>
      unfold matchLoop
      rw [if_neg (by simp)]
      by_cases hR : Q.dropWhile (fun c => decide (c = '*')) = []
      · rw [scanChunk_all_stars Q hR]
        simp only [and_self, ↓reduceIte]
        rw [not_contains_slash _ hsl]
        rfl
      · rw [scanChunk_with_chunk Q hs hR]
        simp only
        -- the parts of the pattern
        generalize hstars : Q.takeWhile (fun c => decide (c = '*')) = stars
        generalize hRd : Q.dropWhile (fun c => decide (c = '*')) = R at hR
        generalize hchunk : R.takeWhile (fun c => decide (c ≠ '*')) = chunk
        generalize hrest : R.dropWhile (fun c => decide (c ≠ '*')) = rest
        have hQR : Q = stars ++ R := by
          rw [← hstars, ← hRd]; exact (List.takeWhile_append_dropWhile _ Q).symm
        have hRcr : R = chunk ++ rest := by
          rw [← hchunk, ← hrest]; exact (List.takeWhile_append_dropWhile _ R).symm
        have hRs : simplePattern R := by
          intro c hc; apply hs; rw [hQR]; exact List.mem_append_right _ hc
        have hcs : simplePattern chunk := by
          intro c hc; apply hRs; rw [hRcr]; exact List.mem_append_left _ hc
        have hrs : simplePattern rest := by
          intro c hc; apply hRs; rw [hRcr]; exact List.mem_append_right _ hc
        have hcne : chunk ≠ [] := by
          intro h0
          cases hR' : R with
          | nil => exact hR hR'
          | cons a R' =>
            have ha : decide (a = '*') = false :=
              dropWhile_head (fun c => decide (c = '*')) Q a (by rw [hRd, hR']; rfl)
            rw [hR', List.takeWhile_cons] at hchunk
            have : decide (a ≠ '*') = true := by simpa using ha
            rw [this] at hchunk
            rw [h0] at hchunk
            simp at hchunk
        have hrhead : rest = [] ∨ rest.head? = some '*' := by
          cases hr : rest with
          | nil => exact Or.inl rfl
          | cons a r' =>
            right
            have ha := dropWhile_head (fun c => decide (c ≠ '*')) R a (by rw [hrest, hr]; rfl)
            simp only [ne_eq, decide_not, Bool.not_eq_eq_eq_not, Bool.not_false,
              decide_eq_true_eq] at ha
            rw [ha]; rfl
        have hname : Y ++ (Q ++ tail) = (Y ++ stars) ++ (chunk ++ (rest ++ tail)) := by
          rw [hQR, hRcr]; simp
        have hlenQ : Q.length = stars.length + chunk.length + rest.length := by
          rw [hQR, hRcr]; simp; omega
        have hcpos : 0 < chunk.length := List.length_pos.mpr hcne
        -- the step to the rest of the pattern
        have hstep : ∀ j, j ≤ (Y ++ stars).length →
            matchLoop fuel (rest ++ ['*']) ((Y ++ (Q ++ tail)).drop (j + chunk.length))
              = .ok true := by
          intro j hj
          have hd : (Y ++ (Q ++ tail)).drop (j + chunk.length)
              = ((Y ++ stars) ++ chunk).drop (j + chunk.length) ++ (rest ++ tail) := by
            rw [hname, ← List.append_assoc (Y ++ stars) chunk]
            exact List.drop_append_of_le_length (by simp at hj ⊢; omega)
          rw [hd]
          apply ih rest (by omega) hrs fuel _ tail (by omega)
          · intro hmem
            apply hsl
            rw [hname]
            rcases List.mem_append.mp hmem with hm | hm
            · have := drop_subset _ _ _ hm
              rcases List.mem_append.mp this with hm' | hm'
              · exact List.mem_append_left _ hm'
              · exact List.mem_append_right _ (List.mem_append_left _ hm')
            · exact List.mem_append_right _ (List.mem_append_right _ hm)
          · right
            rcases hrhead with h0 | h0
            · rw [h0]; rfl
            · cases hr : rest with
              | nil => rfl
              | cons a r' => rw [hr] at h0; simp at h0 ⊢; exact h0
        have hp1 : rest ++ ['*'] ≠ [] := by simp
        rw [if_neg (fun h => hcne h.2)]
        rcases matchChunk_cases chunk (Y ++ (Q ++ tail)) hcs with hm | hm
        · rw [hm]
          simp only
          -- the chunk does not match at the start: a star must come first
          have hA : Y ++ stars ≠ [] := by
            intro h0
            rw [hname, h0, List.nil_append, matchChunk_self chunk _ hcs] at hm
            cases hm
          have hstar : (Q ++ ['*']).head? = some '*' := by
            rcases hY with hY0 | hY0
            · subst hY0
              rw [List.nil_append] at hA
              cases hst : stars with
              | nil => exact absurd hst hA
              | cons a s' =>
                have hmem : a ∈ Q.takeWhile (fun c => decide (c = '*')) := by
                  rw [hstars, hst]; exact List.mem_cons_self _ _
                have ha := List.mem_takeWhile_imp hmem
                simp only [decide_eq_true_eq] at ha
                rw [hQR, hst, ha]
                rfl
            · exact hY0
          have hAs : '/' ∉ Y ++ stars := by
            intro hmem
            apply hsl
            rw [hname]
            exact List.mem_append_left _ hmem
          obtain ⟨j, hj, hfind⟩ := starLoop_finds chunk hcs (Y ++ stars) (rest ++ tail) hAs hA
          rw [← hname] at hfind
          have hdec : decide (rest ++ ['*'] = []) = false := by simp
          rw [hstar]
          simp only [decide_True, ↓reduceIte, hdec, hfind]
          exact hstep j hj
        · rw [hm]
          simp only
          rw [if_pos (Or.inr hp1)]
          have := hstep 0 (Nat.zero_le _)
          rw [Nat.zero_add] at this
          exact this

/-- The filter `<module>_*` matches a name that starts with `<module>_` and
holds no slash, when the module has no bracket, no escape and no slash. -/
theorem Match_filter_self (m rest : GoString) (hs : simplePattern m) (hm : '/' ∉ m)
    (hr : '/' ∉ rest) : Match (m ++ "_*".toList) (m ++ '_' :: rest) = .ok true := by
  have e : m ++ "_*".toList = (m ++ ['_']) ++ ['*'] := by
    have : "_*".toList = ['_', '*'] := rfl
    rw [this]; simp
  have e2 : m ++ '_' :: rest = [] ++ ((m ++ ['_']) ++ rest) := by simp
  unfold Match
  rw [e, e2]
  apply matchLoop_self (m ++ ['_']).length (m ++ ['_']) (le_refl _)
  · rw [simplePattern_append]
    refine ⟨hs, ?_⟩
    intro c hc
    rw [List.mem_singleton.mp hc]
    decide
  · simp
  · simp only [List.nil_append, List.mem_append, List.mem_singleton, not_or]
    exact ⟨⟨hm, by decide⟩, hr⟩
  · exact Or.inl rfl

/-! ## The path of a record below the base path -/

theorem splitOn_append_slash (a b : GoString) :
    (a ++ '/' :: b).splitOn '/' = a.splitOn '/' ++ b.splitOn '/' := by
  induction a with
  | nil =>
    rw [List.nil_append, splitOn_rooted]
    rfl
  | cons x a ih =>
    unfold List.splitOn at ih ⊢
    rw [List.cons_append, List.splitOnP_cons, List.splitOnP_cons, ih]
    by_cases hx : (x == '/') = true
    · rw [if_pos hx, if_pos hx]
      rfl
    · rw [if_neg hx, if_neg hx]
      cases hs : List.splitOnP (fun c => c == '/') a with
      | nil => exact absurd hs (List.splitOnP_ne_nil _ _)
      | cons s ss => rfl

theorem locate_of_longer (fs : FS) (a b q : GoString) (ha : a ≠ [])
    (h : fs.locate (a ++ '/' :: b) = some q) :
    ∃ c, fs.locate a = some c ∧ fs.isDirNode c = true := by
  have hhead : (a ++ '/' :: b).head? = a.head? := by
    cases a with
    | nil => exact absurd rfl ha
    | cons c q => rfl
  unfold FS.locate at h ⊢
  rw [if_neg (by simp), hhead, splitOn_append_slash, walk_append] at h
  rw [if_neg ha]
  cases hw : walk fs (decide (a.head? = some '/')) (a.splitOn '/') [] with
  | none => rw [hw] at h; simp at h
  | some o =>
    rw [hw] at h
    refine ⟨_, rfl, ?_⟩
    simp only [Option.some_bind] at h
    cases hb : b.splitOn '/' with
    | nil => exact absurd hb (List.splitOnP_ne_nil _ _)
    | cons s ss =>
      rw [hb, walk_cons] at h
      by_cases hd : fs.isDirNode (renderPath (decide (a.head? = some '/')) o) = true
      · exact hd
      · rw [if_neg hd] at h
        simp at h

theorem Clean_trailing_slash (x : GoString) (hx : x ≠ []) : Clean (x ++ ['/']) = Clean x := by
  have hhead : (x ++ ['/']).head? = x.head? := by
    cases x with
    | nil => exact absurd rfl hx
    | cons c q => rfl
  rw [Clean_eq _ (by simp), Clean_eq _ hx, hhead, splitOn_append_slash, List.foldl_append]
  have : ([] : GoString).splitOn '/' = [[]] := rfl
  rw [this, List.foldl_cons, List.foldl_nil]
  have hstep : ∀ r out, cleanStep r out [] = out := by
    intro r out
    unfold cleanStep
    rw [if_pos (Or.inl rfl)]
  rw [hstep]

theorem Split_spec (s : GoString) :
    s = (Split s).1 ++ (Split s).2 ∧ '/' ∉ (Split s).2 ∧
      ((Split s).1 = [] ∨ ∃ d, (Split s).1 = d ++ ['/']) := by
  by_cases h : '/' ∈ s
  · obtain ⟨pre, last, he, hl⟩ := last_slash s h
    have := Split_append pre last hl
    rw [← he] at this
    rw [this]
    exact ⟨by rw [he]; simp, hl, Or.inr ⟨pre, rfl⟩⟩
  · rw [Split_no_slash s h]
    exact ⟨rfl, h, Or.inl rfl⟩

/-- The path of a file whose name starts with the module, seen from the
directory that the directory part of the module leads to. -/
theorem module_path (p m : GoString) (hp : p ≠ [])
    (hdir : Clean (p ++ '/' :: (Split m).1) = Clean p) :
    ∃ P, P ≠ [] ∧ Clean P = Clean p ∧
      (P = p ∨ ∃ d, P = p ++ '/' :: d) ∧
      ∀ z, p ++ '/' :: (m ++ z) = P ++ '/' :: ((Split m).2 ++ z) := by
  obtain ⟨hm, -, hd⟩ := Split_spec m
  rcases hd with hd | ⟨d, hd⟩
  · refine ⟨p, hp, rfl, Or.inl rfl, ?_⟩
    intro z
    rw [hd, List.nil_append] at hm
    rw [← hm]
  · refine ⟨p ++ '/' :: d, by simp, ?_, Or.inr ⟨d, rfl⟩, ?_⟩
    · rw [hd] at hdir
      rw [← hdir, ← Clean_trailing_slash _ (by simp)]
      simp
    · intro z
      conv_lhs => rw [hm, hd]
      simp

theorem FileBasename_has_filter (r : PullResponse)
    (h : r.Module ≠ [] ∨ r.Name.head? = some '_') :
    ∃ rest, FileBasename r = r.Module ++ '_' :: rest ∧ ∀ c ∈ rest, c ∈ r.Name := by
  by_cases hm : r.Module = []
  · rcases h with h | h
    · exact absurd hm h
    · cases hn : r.Name with
      | nil => rw [hn] at h; simp at h
      | cons c rest =>
        rw [hn] at h
        simp only [List.head?_cons, Option.some.injEq] at h
        refine ⟨rest, ?_, fun x hx => List.mem_cons_of_mem c hx⟩
        simp [FileBasename, hm, hn, h]
  · exact ⟨r.Name, by simp [FileBasename, hm], fun x hx => hx⟩

theorem plainElement_of_underscore (a b : GoString) : plainElement (a ++ '_' :: b) := by
  have hmem : '_' ∈ a ++ '_' :: b := by simp
  refine ⟨?_, ?_, ?_⟩
  · intro h; rw [h] at hmem; simp at hmem
  · intro h; rw [h] at hmem; revert hmem; decide
  · intro h; rw [h] at hmem; revert hmem; decide

/-! ## The directory after a write -/

theorem locate_child_some (fs : FS) (P x q : GoString) (hP : P ≠ []) (hx : '/' ∉ x)
    (hpl : plainElement x) (h : fs.locate (P ++ '/' :: x) = some q) :
    ∃ c, fs.locate P = some c ∧ fs.isDirNode c = true ∧ q = childOf c x := by
  rw [locate_child fs P x hP hx hpl] at h
  cases hl : fs.locate P with
  | none => rw [hl] at h; simp at h
  | some c =>
    rw [hl] at h
    simp only [Option.some_bind] at h
    by_cases hd : fs.isDirNode c = true
    · rw [if_pos hd] at h
      exact ⟨c, rfl, hd, (Option.some.inj h).symm⟩
    · rw [if_neg hd] at h; cases h

theorem putFile_absent (p data : GoString) (l : List (GoString × File))
    (h : ∀ e ∈ l, e.1 ≠ p) :
    putFile p data l = l ++ [(p, { content := data, readable := true })] := by
  induction l with
  | nil => rfl
  | cons e l ih =>
    unfold putFile
    rw [if_neg (h e (List.mem_cons_self e l)), ih (fun e' he' => h e' (List.mem_cons_of_mem e he'))]
    rfl

theorem file_of_appended (l : List (GoString × File)) (p : GoString) (f : File)
    (rest : List (GoString × File)) (h : ∀ e ∈ l, e.1 ≠ p) :
    (l ++ (p, f) :: rest).find? (fun e => decide (e.1 = p)) = some (p, f) := by
  induction l with
  | nil => simp
  | cons e l ih =>
    rw [List.cons_append, List.find?_cons]
    have : decide (e.1 = p) = false := by simpa using h e (List.mem_cons_self e l)
    rw [this]
    exact ih (fun e' he' => h e' (List.mem_cons_of_mem e he'))

theorem entriesOf_nil_iff (fs : FS) (dir : GoString) (h : entriesOf fs dir = []) :
    (∀ d ∈ fs.dirs, ¬ (parentDir d = dir ∧ (Split d).2 ≠ [])) ∧
    (∀ e ∈ fs.files, ¬ (parentDir e.1 = dir ∧ (Split e.1).2 ≠ [])) := by
  unfold entriesOf at h
  rw [List.filter_eq_nil_iff] at h
  constructor
  · intro d hd
    have := h d (List.mem_append_left _ hd)
    simpa using this
  · intro e he
    have := h e.1 (List.mem_append_right _ (List.mem_map_of_mem _ he))
    simpa using this

theorem filter_entries_nil (l : List GoString) (dir : GoString)
    (h : ∀ d ∈ l, ¬ (parentDir d = dir ∧ (Split d).2 ≠ [])) :
    l.filter (fun p => decide (parentDir p = dir) && decide ((Split p).2 ≠ [])) = [] := by
  rw [List.filter_eq_nil_iff]
  intro d hd
  have := h d hd
  simpa using this

theorem child_is_entry (c x : GoString) (hc : c ≠ []) (hx : '/' ∉ x) (hne : x ≠ []) :
    parentDir (childOf c x) = c ∧ (Split (childOf c x)).2 ≠ [] := by
  obtain ⟨h1, h2⟩ := Split_childOf c x hc hx
  refine ⟨h1, ?_⟩
  rw [h2]
  exact hne

theorem entriesOf_nil_of_readDirNames (fs : FS) (dir q : GoString)
    (hl : fs.locate dir = some q) (h : readDirNames fs dir = []) : entriesOf fs q = [] := by
  unfold readDirNames at h
  rw [hl] at h
  simp only at h
  have hp := List.perm_insertionSort (fun a b => strLe a b = true)
    ((entriesOf fs q).map (fun p => (Split p).2))
  rw [h] at hp
  have := hp.symm.eq_nil
  exact List.map_eq_nil_iff.mp this

theorem mem_intercalate (sep : GoString) (l : List GoString) (c : Char)
    (h : c ∈ sep.intercalate l) : c ∈ sep ∨ ∃ s ∈ l, c ∈ s := by
  induction l with
  | nil => simp [List.intercalate, List.intersperse, List.flatten] at h
  | cons a l ih =>
    cases l with
    | nil =>
      simp only [List.intercalate, List.intersperse, List.flatten_cons, List.flatten_nil,
        List.append_nil] at h
      exact Or.inr ⟨a, List.mem_cons_self _ _, h⟩
    | cons b l =>
      simp only [List.intercalate, List.intersperse_cons_cons, List.flatten_cons,
        List.mem_append] at h ih
      rcases h with h | h | h
      · exact Or.inr ⟨a, List.mem_cons_self _ _, h⟩
      · exact Or.inl h
      · rcases ih h with h' | ⟨s, hs, hc⟩
        · exact Or.inl h'
        · exact Or.inr ⟨s, List.mem_cons_of_mem _ hs, hc⟩

theorem dotsOnly_chars (q : GoString) (h : dotsOnly q = true) : ∀ c ∈ q, c = '.' ∨ c = '/' := by
  intro c hc
  unfold dotsOnly at h
  rw [List.all_eq_true] at h
  rw [← List.intercalate_splitOn q '/'] at hc
  rcases mem_intercalate _ _ _ hc with h1 | ⟨s, hs, hcs⟩
  · right; simpa using h1
  · left
    have := h s hs
    simp only [decide_eq_true_eq] at this
    rw [this] at hcs
    revert hcs
    have e : "..".toList = ['.', '.'] := rfl
    rw [e]
    simp

/-- A node whose name holds an underscore is a directory only when it is listed. -/
theorem isDirNode_underscore (fs : FS) (q : GoString) (hu : '_' ∈ q)
    (h : fs.isDirNode q = true) : q ∈ fs.dirs := by
  unfold FS.isDirNode at h
  simp only [Bool.or_eq_true, decide_eq_true_eq] at h
  rcases h with ((h | h) | h) | h
  · rw [h] at hu; exact absurd hu (by decide)
  · rw [h] at hu; exact absurd hu (by decide)
  · rcases dotsOnly_chars q h '_' hu with h' | h'
    · exact absurd h' (by decide)
    · exact absurd h' (by decide)
  · exact h

theorem childOf_mem (c x : GoString) (ch : Char) (h : ch ∈ x) : ch ∈ childOf c x := by
  unfold childOf
  split_ifs
  · exact h
  · exact List.mem_cons_of_mem _ h
  · exact List.mem_append_right _ (List.mem_cons_of_mem _ h)

theorem childOf_ne_self (c x : GoString) (hx : '_' ∈ x) : childOf c x ≠ c := by
  unfold childOf
  split_ifs with h1 h2
  · intro h; rw [h, h1] at hx; revert hx; decide
  · intro h
    rw [h2] at h
    have := (List.cons.inj h).2
    rw [this] at hx
    simp at hx
  · intro h
    have := congrArg List.length h
    simp at this

theorem first_slash (s : GoString) (h : '/' ∈ s) :
    ∃ pre post, s = pre ++ '/' :: post ∧ '/' ∉ pre := by
  induction s with
  | nil => simp at h
  | cons c s ih =>
    by_cases hc : c = '/'
    · exact ⟨[], s, by rw [hc]; rfl, by simp⟩
    · have hs : '/' ∈ s := by
        rcases List.mem_cons.mp h with h | h
        · exact absurd h.symm hc
        · exact h
      obtain ⟨pre, post, he, hl⟩ := ih hs
      refine ⟨c :: pre, post, by rw [he]; rfl, ?_⟩
      intro hm
      rcases List.mem_cons.mp hm with hm | hm
      · exact hc hm.symm
      · exact hl hm

theorem not_slash_ext (b ext : GoString) (hb : '/' ∉ b) (he : '/' ∉ ext) : '/' ∉ b ++ ext := by
  intro h
  rcases List.mem_append.mp h with h | h
  · exact hb h
  · exact he h

/-- The base directory seen from the file system in which `WriteAtRest` writes. -/
theorem base_dir_after_mkdir (fs : FS) (p P c : GoString)
    (hP : P = p ∨ ∃ d, P = p ++ '/' :: d) (hp : p ≠ []) (hcl : Clean P = Clean p)
    (hl : (afterMkdir fs p).locate P = some c) :
    c = Clean p ∧ (afterMkdir fs p).locate p = some c ∧ fs.locate p = some c ∧
      (afterMkdir fs p).locate c = some c ∧
      ((afterMkdir fs p).dirs = fs.dirs ∨
        (fs.nodeExists c = false ∧ (afterMkdir fs p).dirs = fs.dirs ++ [c])) := by
  have hc : c = Clean p := by rw [← hcl]; exact locate_eq_Clean _ _ _ hl
  have h1 : (afterMkdir fs p).locate p = some c := by
    rcases hP with hP | ⟨d, hP⟩
    · rw [hP] at hl; exact hl
    · rw [hP] at hl
      obtain ⟨a, ha, -⟩ := locate_of_longer _ p d c hp hl
      rw [ha, hc, locate_eq_Clean _ _ _ ha]
  refine ⟨hc, h1, ?_, locate_idem _ _ _ hl, ?_⟩
  · rcases afterMkdir_cases fs p with h0 | ⟨q, hq, -, -⟩
    · rw [h0] at h1; exact h1
    · rw [hq, hc, locate_eq_Clean _ _ _ hq]
  · rcases afterMkdir_cases fs p with h0 | ⟨q, hq, hex, h0⟩
    · left; rw [h0]
    · right
      have : q = c := by rw [hc, locate_eq_Clean _ _ _ hq]
      rw [← this]
      exact ⟨hex, by rw [h0]⟩

/-- A record whose name holds a slash cannot be written below a directory
without entries. -/
theorem no_slash_of_write (fs : FS) (p P c e1 rest q : GoString) (hp : p ≠ [])
    (hP : P = p ∨ ∃ d, P = p ++ '/' :: d) (hPne : P ≠ []) (hcl : Clean P = Clean p)
    (hempty : readDirNames fs p = []) (he1 : '/' ∉ e1) (hu : '_' ∈ e1)
    (hl : (afterMkdir fs p).locate ((P ++ '/' :: e1) ++ '/' :: rest) = some q)
    (hc : (afterMkdir fs p).locate P = some c) : False := by
  obtain ⟨a, ha, had⟩ := locate_of_longer _ _ _ _ (by simp) hl
  have hpl : plainElement e1 := by
    refine ⟨?_, ?_, ?_⟩
    · intro h; rw [h] at hu; simp at hu
    · intro h; rw [h] at hu; revert hu; decide
    · intro h; rw [h] at hu; revert hu; decide
  obtain ⟨c', hc', -, hq⟩ := locate_child_some _ P e1 a hPne he1 hpl ha
  rw [hc] at hc'
  cases hc'
  obtain ⟨hcp, -, hfs, -, hdirs⟩ := base_dir_after_mkdir fs p P c hP hp hcl hc
  have hmem := isDirNode_underscore _ a (by rw [hq]; exact childOf_mem c e1 '_' hu) had
  have hent := entriesOf_nil_iff fs c (entriesOf_nil_of_readDirNames fs p c hfs hempty)
  have hcne : c ≠ [] := by rw [hcp]; exact Clean_ne_nil p
  have hentry := child_is_entry c e1 hcne he1 hpl.1
  rw [← hq] at hentry
  rcases hdirs with hd | ⟨-, hd⟩
  · rw [hd] at hmem
    exact hent.1 a hmem hentry
  · rw [hd] at hmem
    rcases List.mem_append.mp hmem with hm | hm
    · exact hent.1 a hm hentry
    · rw [List.mem_singleton.mp hm] at hq
      exact childOf_ne_self c e1 hu hq.symm

theorem Join_module (p m z : GoString) (hp : p ≠ [])
    (hdir : Clean (p ++ '/' :: (Split m).1) = Clean p) (hz : '/' ∉ z) :
    Join p (m ++ '_' :: z) = childOf (Clean p) ((Split m).2 ++ '_' :: z) := by
  obtain ⟨P, hPne, hcl, -, hpath⟩ := module_path p m hp hdir
  obtain ⟨-, hml, -⟩ := Split_spec m
  unfold Join
  rw [if_pos hp, slash_toList]
  have e : p ++ ['/'] ++ (m ++ '_' :: z) = p ++ '/' :: (m ++ '_' :: z) := by simp
  rw [e, hpath, Clean_child P _ hPne _ (plainElement_of_underscore _ _), hcl]
  intro h
  rcases List.mem_append.mp h with h | h
  · exact hml h
  · rcases List.mem_cons.mp h with h | h
    · revert h; decide
    · exact hz h

/-- The state a successful `WriteAtRest` leaves when the directory `p` had no
entries: the two files are new, hence readable, `p` is a directory, and the
two files are its only entries. -/
theorem WriteAtRest_into_empty (J : JsonText) (fs fs' : FS) (r : PullResponse) (p : GoString)
    (hp : p ≠ [])
    (hdir : Clean (p ++ '/' :: (Split r.Module).1) = Clean p)
    (hpre : r.Module ≠ [] ∨ r.Name.head? = some '_')
    (hempty : readDirNames fs p = [])
    (hw : WriteAtRest J fs r p = (none, fs')) :
    ∃ x, '/' ∉ x ∧ FileBasename r = r.Module ++ '_' :: x ∧
      fs'.locate p = some (Clean p) ∧ fs'.locate (Clean p) = some (Clean p) ∧
      fs'.isDirNode (Clean p) = true ∧
      fs'.file (childOf (Clean p) (((Split r.Module).2 ++ '_' :: x) ++ ".json".toList))
        = some { content := MarshalIndent J { r with Body := [] }, readable := true } ∧
      fs'.file (childOf (Clean p) (((Split r.Module).2 ++ '_' :: x) ++ ".xml".toList))
        = some { content := r.Body, readable := true } ∧
      entriesOf fs' (Clean p)
        = [childOf (Clean p) (((Split r.Module).2 ++ '_' :: x) ++ ".json".toList),
           childOf (Clean p) (((Split r.Module).2 ++ '_' :: x) ++ ".xml".toList)] := by
  obtain ⟨x, hb, -⟩ := FileBasename_has_filter r hpre
  obtain ⟨P, hPne, hcl, hPp, hz⟩ := module_path p r.Module hp hdir
  obtain ⟨-, hml, -⟩ := Split_spec r.Module
  obtain ⟨fs2, h1, h2⟩ := WriteAtRest_ok J fs fs' r p hw
  obtain ⟨qm, hlm, hdm, hfs2⟩ := WriteFile_ok_iff _ _ _ _ h1
  obtain ⟨qb, hlb, hdb, hfs'⟩ := WriteFile_ok_iff _ _ _ _ h2
  have hdirs2 : fs2.dirs = (afterMkdir fs p).dirs := by rw [hfs2]
  have hdirs' : fs'.dirs = (afterMkdir fs p).dirs := by rw [hfs', hdirs2]
  rw [locate_congr (afterMkdir fs p) fs2 hdirs2] at hlb
  rw [isDirNode_congr (afterMkdir fs p) fs2 hdirs2] at hdb
  have hmp : ∀ ext : GoString, p ++ "/".toList ++ FileBasename r ++ ext
      = P ++ '/' :: ((Split r.Module).2 ++ ('_' :: x ++ ext)) := by
    intro ext
    rw [← hz, hb, slash_toList]
    simp
  -- the name holds no slash
  have hx : '/' ∉ x := by
    intro hsl
    obtain ⟨x1, x2, hx12, hx1⟩ := first_slash x hsl
    have hmp' : manifestPath p r
        = (P ++ '/' :: ((Split r.Module).2 ++ '_' :: x1)) ++ '/' :: (x2 ++ ".json".toList) := by
      unfold manifestPath
      rw [hmp, hx12]
      simp
    rw [hmp'] at hlm
    have hlm0 := hlm
    rw [List.append_assoc] at hlm0
    obtain ⟨c, hc, -⟩ := locate_of_longer _ P _ _ hPne hlm0
    refine no_slash_of_write fs p P c ((Split r.Module).2 ++ '_' :: x1) _ qm hp hPp hPne hcl
      hempty ?_ (by simp) hlm hc
    intro h
    rcases List.mem_append.mp h with h | h
    · exact hml h
    · rcases List.mem_cons.mp h with h | h
      · revert h; decide
      · exact hx1 h
  refine ⟨x, hx, hb, ?_⟩
  have hbl : '/' ∉ (Split r.Module).2 ++ '_' :: x := by
    intro h
    rcases List.mem_append.mp h with h | h
    · exact hml h
    · rcases List.mem_cons.mp h with h | h
      · revert h; decide
      · exact hx h
  generalize hblast : (Split r.Module).2 ++ '_' :: x = blast at hbl ⊢
  have hu : '_' ∈ blast := by rw [← hblast]; simp
  have hjs : '/' ∉ blast ++ ".json".toList := not_slash_ext _ _ hbl (by decide)
  have hxs : '/' ∉ blast ++ ".xml".toList := not_slash_ext _ _ hbl (by decide)
  have hmpj : manifestPath p r = P ++ '/' :: (blast ++ ".json".toList) := by
    unfold manifestPath
    rw [hmp, ← hblast]
    simp
  have hbpx : bodyPath p r = P ++ '/' :: (blast ++ ".xml".toList) := by
    unfold bodyPath
    rw [hmp, ← hblast]
    simp
  rw [hmpj] at hlm
  rw [hbpx] at hlb
  obtain ⟨c, hc, hcd, hqm⟩ := locate_child_some _ P _ qm hPne hjs
    (plainElement_with_ext _ _ (by decide)) hlm
  obtain ⟨c', hc', -, hqb⟩ := locate_child_some _ P _ qb hPne hxs
    (plainElement_with_ext _ _ (by decide)) hlb
  rw [hc] at hc'
  cases hc'
  obtain ⟨hcp, hlp, hfs, hlc, hdirs⟩ := base_dir_after_mkdir fs p P c hPp hp hcl hc
  rw [← hcp]
  have hcne : c ≠ [] := by rw [hcp]; exact Clean_ne_nil p
  have hent := entriesOf_nil_iff fs c (entriesOf_nil_of_readDirNames fs p c hfs hempty)
  have hmEntry := child_is_entry c (blast ++ ".json".toList) hcne hjs (by simp)
  have hbEntry := child_is_entry c (blast ++ ".xml".toList) hcne hxs (by simp)
  rw [← hqm] at hmEntry
  rw [← hqb] at hbEntry
  have hne : qm ≠ qb := by
    rw [hqm, hqb]
    intro h
    have := List.append_cancel_left (childOf_injective _ _ _ h)
    revert this
    decide
  have hfiles1 : (afterMkdir fs p).files = fs.files := afterMkdir_files fs p
  have habs1 : ∀ e ∈ fs.files, e.1 ≠ qm := by
    intro e he heq
    exact hent.2 e he (by rw [heq]; exact hmEntry)
  have habs2 : ∀ e ∈ fs.files ++
      [(qm, ({ content := MarshalIndent J { r with Body := [] }, readable := true } : File))],
      e.1 ≠ qb := by
    intro e he heq
    rcases List.mem_append.mp he with he | he
    · exact hent.2 e he (by rw [heq]; exact hbEntry)
    · rw [List.mem_singleton.mp he] at heq
      exact hne heq
  have hfiles' : fs'.files = fs.files ++
      [(qm, { content := MarshalIndent J { r with Body := [] }, readable := true }),
       (qb, { content := r.Body, readable := true })] := by
    rw [hfs', hfs2]
    simp only [hfiles1]
    rw [putFile_absent _ _ _ habs1, putFile_absent _ _ _ habs2]
    simp
  have hlocm : fs'.locate qm = some qm :=
    (locate_congr (afterMkdir fs p) fs' hdirs' qm).trans (locate_idem _ _ _ hlm)
  have hlocb : fs'.locate qb = some qb :=
    (locate_congr (afterMkdir fs p) fs' hdirs' qb).trans (locate_idem _ _ _ hlb)
  have hndm : fs'.isDirNode qm = false :=
    (isDirNode_congr (afterMkdir fs p) fs' hdirs' qm).trans hdm
  have hndb : fs'.isDirNode qb = false :=
    (isDirNode_congr (afterMkdir fs p) fs' hdirs' qb).trans hdb
  rw [← hqm, ← hqb]
  refine ⟨(locate_congr (afterMkdir fs p) fs' hdirs' p).trans hlp,
    (locate_congr (afterMkdir fs p) fs' hdirs' c).trans hlc,
    (isDirNode_congr (afterMkdir fs p) fs' hdirs' c).trans hcd, ?_, ?_, ?_⟩
  · unfold FS.file
    rw [hlocm]
    simp only
    unfold FS.fileNode
    rw [hndm, hfiles']
    simp only [Bool.false_eq_true, ↓reduceIte]
    rw [file_of_appended _ _ _ _ habs1]
    rfl
  · unfold FS.file
    rw [hlocb]
    simp only
    unfold FS.fileNode
    rw [hndb, hfiles']
    simp only [Bool.false_eq_true, ↓reduceIte]
    have : fs.files ++
        [(qm, ({ content := MarshalIndent J { r with Body := [] }, readable := true } : File)),
         (qb, { content := r.Body, readable := true })]
        = (fs.files ++ [(qm, { content := MarshalIndent J { r with Body := [] }, readable := true })])
          ++ (qb, { content := r.Body, readable := true }) :: [] := by simp
    rw [this, file_of_appended _ _ _ _ habs2]
    rfl
  · unfold entriesOf
    rw [hfiles', hdirs', List.map_append, List.filter_append, List.filter_append]
    have hd : (afterMkdir fs p).dirs.filter
        (fun q => decide (parentDir q = c) && decide ((Split q).2 ≠ [])) = [] := by
      apply filter_entries_nil
      intro d hd
      rcases hdirs with h | ⟨hex, h⟩
      · rw [h] at hd; exact hent.1 d hd
      · rw [h] at hd
        rcases List.mem_append.mp hd with hd | hd
        · exact hent.1 d hd
        · rw [List.mem_singleton.mp hd]
          intro hx
          have hcc : c = ".".toList ∨ c = "/".toList := by
            have h := hx.1
            unfold parentDir cleanGlobPath at h
            by_cases h1 : (Split c).1 = []
            · rw [if_pos h1] at h
              exact Or.inl h.symm
            · rw [if_neg h1] at h
              by_cases h2 : (Split c).1 = "/".toList
              · rw [if_pos h2, h2] at h
                exact Or.inr h.symm
              · rw [if_neg h2] at h
                have hlen := congrArg List.length h
                have hle : (Split c).1.length ≤ c.length := by
                  unfold Split
                  simp only [List.length_take]
                  omega
                have hpos : 0 < (Split c).1.length := List.length_pos.mpr h1
                rw [List.length_dropLast] at hlen
                omega
          have hnd : fs.isDirNode c = false := by
            unfold FS.nodeExists at hex
            simp only [Bool.or_eq_false_iff] at hex
            exact hex.1
          rcases hcc with hcc | hcc <;> rw [hcc] at hnd <;> simp [FS.isDirNode] at hnd
    have hf : (fs.files.map (fun e => e.1)).filter
        (fun q => decide (parentDir q = c) && decide ((Split q).2 ≠ [])) = [] := by
      apply filter_entries_nil
      intro d hd
      obtain ⟨e, he, rfl⟩ := List.mem_map.mp hd
      exact hent.2 e he
    rw [hd, hf]
    simp [List.filter_cons, hmEntry.1, hmEntry.2, hbEntry.1, hbEntry.2]

/-! ## The glob of the module filter -/

theorem hasMeta_false_iff (s : GoString) :
    hasMeta s = false ↔ ∀ c ∈ s, c ≠ '*' ∧ c ≠ '?' ∧ c ≠ '[' ∧ c ≠ '\\' := by
  unfold hasMeta
  rw [List.any_eq_false]
  constructor
  · intro h c hc
    have := h c hc
    simpa [not_or] using this
  · intro h c hc
    have := h c hc
    simpa [not_or] using this

theorem childOf_chars (c x : GoString) (ch : Char) (h : ch ∈ childOf c x) :
    ch ∈ c ∨ ch = '/' ∨ ch ∈ x := by
  unfold childOf at h
  split_ifs at h
  · exact Or.inr (Or.inr h)
  · rcases List.mem_cons.mp h with h | h
    · exact Or.inr (Or.inl h)
    · exact Or.inr (Or.inr h)
  · rcases List.mem_append.mp h with h | h
    · exact Or.inl h
    · rcases List.mem_cons.mp h with h | h
      · exact Or.inr (Or.inl h)
      · exact Or.inr (Or.inr h)

theorem Glob_module_filter (fs : FS) (c mlast : GoString) (hcne : c ≠ [])
    (hmeta : hasMeta c = false) (hs : simplePattern mlast) (hml : '/' ∉ mlast) :
    Glob fs (childOf c (mlast ++ "_*".toList)) = globDir fs c (mlast ++ "_*".toList) [] := by
  have e : "_*".toList = ['_', '*'] := rfl
  have hslash : '/' ∉ mlast ++ "_*".toList := by
    rw [e]; simp [hml]
  have hsimple : simplePattern (childOf c (mlast ++ "_*".toList)) := by
    intro ch hch
    rcases childOf_chars _ _ _ hch with h | h | h
    · have := (hasMeta_false_iff c).mp hmeta ch h
      exact ⟨this.2.2.1, this.2.2.2⟩
    · rw [h]; decide
    · rcases List.mem_append.mp h with h | h
      · exact hs ch h
      · rw [e] at h
        simp only [List.mem_cons, List.mem_singleton, List.not_mem_nil, or_false] at h
        rcases h with h | h <;> rw [h] <;> decide
  obtain ⟨b, hb⟩ := Match_simple (childOf c (mlast ++ "_*".toList)) [] hsimple
  have hm : hasMeta (childOf c (mlast ++ "_*".toList)) = true := by
    unfold hasMeta
    rw [List.any_eq_true]
    exact ⟨'*', childOf_mem _ _ _ (by rw [e]; simp), by simp⟩
  obtain ⟨h1, h2⟩ := Split_childOf c (mlast ++ "_*".toList) hcne hslash
  unfold Glob globAux
  rw [hb]
  simp only [hm, Bool.true_eq_false, ↓reduceIte, h1, h2, hmeta]

theorem Join_entry (p x : GoString) (hx : '/' ∉ x) (hpl : plainElement x) :
    Join (Clean p) x = childOf (Clean p) x := by
  unfold Join
  rw [if_pos (Clean_ne_nil p), slash_toList]
  have e : Clean p ++ ['/'] ++ x = Clean p ++ '/' :: x := by simp
  rw [e, Clean_child _ _ (Clean_ne_nil p) hx hpl, Clean_idem]

theorem Stat_dir (fs : FS) (p q : GoString) (hl : fs.locate p = some q)
    (hd : fs.isDirNode q = true) : Stat fs p = .ok true := by
  have : fs.isDir p = true := by
    unfold FS.isDir
    rw [hl]
    exact hd
  unfold Stat FS.pathExists
  rw [this]
  rfl

theorem readOrEmpty_file (fs : FS) (p data : GoString)
    (h : fs.file p = some { content := data, readable := true }) : readOrEmpty fs p = data := by
  unfold readOrEmpty ReadFile
  rw [h]
  rfl

/-- The round trip, from the state that the write leaves. -/
theorem ReadFiles_after_write (J : JsonText) (fs' : FS) (r : PullResponse) (p x : GoString)
    (hp : p ≠ [])
    (hmeta : hasMeta (Clean p) = false)
    (hdir : Clean (p ++ '/' :: (Split r.Module).1) = Clean p)
    (hmod : simplePattern (Split r.Module).2)
    (hjson : containsText ".json".toList (Join p (FileBasename r)) = false)
    (hint : -(2 : Int) ^ 63 ≤ r.MaxAutoSaves ∧ r.MaxAutoSaves < (2 : Int) ^ 63)
    (hJ : J.parse (J.render (toJSON { r with Body := [] })) = some (toJSON { r with Body := [] }))
    (hx : '/' ∉ x) (hb : FileBasename r = r.Module ++ '_' :: x)
    (hlp : fs'.locate p = some (Clean p)) (hlc : fs'.locate (Clean p) = some (Clean p))
    (hcd : fs'.isDirNode (Clean p) = true)
    (hfm : fs'.file (childOf (Clean p) (((Split r.Module).2 ++ '_' :: x) ++ ".json".toList))
        = some { content := MarshalIndent J { r with Body := [] }, readable := true })
    (hfb : fs'.file (childOf (Clean p) (((Split r.Module).2 ++ '_' :: x) ++ ".xml".toList))
        = some { content := r.Body, readable := true })
    (hent : entriesOf fs' (Clean p)
        = [childOf (Clean p) (((Split r.Module).2 ++ '_' :: x) ++ ".json".toList),
           childOf (Clean p) (((Split r.Module).2 ++ '_' :: x) ++ ".xml".toList)]) :
    ReadFiles J fs' p r.Module [] = .ok [r] := by
  obtain ⟨-, hml, -⟩ := Split_spec r.Module
  have hcne := Clean_ne_nil p
  have hbl : '/' ∉ (Split r.Module).2 ++ '_' :: x := by
    intro h
    rcases List.mem_append.mp h with h | h
    · exact hml h
    · rcases List.mem_cons.mp h with h | h
      · revert h; decide
      · exact hx h
  have hjoinb : Join p (FileBasename r) = childOf (Clean p) ((Split r.Module).2 ++ '_' :: x) := by
    rw [hb]; exact Join_module p r.Module x hp hdir hx
  have hjoinf : Join p (r.Module ++ "_*".toList)
      = childOf (Clean p) ((Split r.Module).2 ++ "_*".toList) := by
    have e : "_*".toList = '_' :: ['*'] := rfl
    rw [e]
    exact Join_module p r.Module ['*'] hp hdir (by decide)
  rw [hjoinb] at hjson
  generalize hblast : (Split r.Module).2 ++ '_' :: x = blast at *
  generalize hc : Clean p = c at *
  have hjs : '/' ∉ blast ++ ".json".toList := not_slash_ext _ _ hbl (by decide)
  have hxs : '/' ∉ blast ++ ".xml".toList := not_slash_ext _ _ hbl (by decide)
  have hSj := Split_childOf c (blast ++ ".json".toList) hcne hjs
  have hSx := Split_childOf c (blast ++ ".xml".toList) hcne hxs
  -- the names in the directory
  have hnames : readDirNames fs' c = [blast ++ ".json".toList, blast ++ ".xml".toList] := by
    unfold readDirNames
    rw [hlc]
    simp only [hent, List.map_cons, List.map_nil, hSj.2, hSx.2]
    have hle : strLe (blast ++ ".json".toList) (blast ++ ".xml".toList) = true := by
      rw [strLe_common]; decide
    simp only [List.insertionSort, List.orderedInsert, hle, ↓reduceIte]
  have hMj : Match ((Split r.Module).2 ++ "_*".toList) (blast ++ ".json".toList) = .ok true := by
    rw [← hblast]
    have := Match_filter_self (Split r.Module).2 (x ++ ".json".toList) hmod hml
      (not_slash_ext _ _ hx (by decide))
    simpa using this
  have hMx : Match ((Split r.Module).2 ++ "_*".toList) (blast ++ ".xml".toList) = .ok true := by
    rw [← hblast]
    have := Match_filter_self (Split r.Module).2 (x ++ ".xml".toList) hmod hml
      (not_slash_ext _ _ hx (by decide))
    simpa using this
  have hJj : Join c (blast ++ ".json".toList) = childOf c (blast ++ ".json".toList) := by
    rw [← hc]; exact Join_entry p _ hjs (plainElement_with_ext _ _ (by decide))
  have hJx : Join c (blast ++ ".xml".toList) = childOf c (blast ++ ".xml".toList) := by
    rw [← hc]; exact Join_entry p _ hxs (plainElement_with_ext _ _ (by decide))
  have hres : resolveFiles fs' p r.Module []
      = .ok [childOf c (blast ++ ".json".toList), childOf c (blast ++ ".xml".toList)] := by
    unfold resolveFiles
    rw [if_neg (by simp), Stat_dir fs' p c hlp hcd]
    simp only
    unfold FilterByModule
    simp only [List.nil_append]
    rw [hjoinf, Glob_module_filter fs' c _ hcne hmeta hmod hml]
    unfold globDir
    rw [Stat_dir fs' c c hlc hcd]
    simp only
    rw [hnames]
    simp only [globNames, hMj, hMx, ↓reduceIte, List.nil_append, hJj, hJx, List.cons_append]
  rw [ReadFiles_of_resolved J fs' p r.Module [] _ hres]
  have hEj : Ext (childOf c (blast ++ ".json".toList)) = ".json".toList := by
    rw [childOf_append]
    exact Ext_suffix _ "json".toList (by decide)
  have hEx : Ext (childOf c (blast ++ ".xml".toList)) = ".xml".toList := by
    rw [childOf_append]
    exact Ext_suffix _ "xml".toList (by decide)
  have hbody : bodyFilename (childOf c (blast ++ ".json".toList))
      = childOf c (blast ++ ".xml".toList) := by
    rw [childOf_append, childOf_append]
    exact bodyFilename_json _ hjson
  have hdef : readDefinition J fs' (childOf c (blast ++ ".json".toList)) = r := by
    unfold readDefinition
    simp only
    rw [hbody, readOrEmpty_file fs' _ _ hfm, readOrEmpty_file fs' _ _ hfb,
      Unmarshal_MarshalIndent J r hJ hint]
  have h1 : decide (".json".toList ≠ ".xml".toList) = true := by decide
  have h2 : decide (".xml".toList ≠ ".xml".toList) = false := by decide
  rw [List.filter_cons, List.filter_cons, List.filter_nil, hEj, hEx, h1, h2]
  simp only [↓reduceIte, Bool.false_eq_true, List.map_cons, List.map_nil, hdef]

/-! ## A body file that cannot be opened -/

/-- When the file that the reader opens for the body cannot be read (it is
missing, or may not be opened), the record is the one parsed from the manifest
with an empty body, whatever `body` member the manifest has. -/
theorem readDefinition_unreadable_body (J : JsonText) (fs : FS) (f : GoString) (err : Err)
    (h : ReadFile fs (bodyFilename f) = .error err) :
    readDefinition J fs f
      = { Unmarshal J (readOrEmpty fs f) PullResponse.zero with Body := [] } := by
  simp [readDefinition, readOrEmpty, h]

/-! ## The claims -/

/-! ### C1: the round trip -/

/-- C1, as amended: the round trip under the conventions the reader relies
on. Let `p` be a base path that is not empty and whose cleaned form
(`filepath.Clean`) is free of the glob characters `*?[\`; let the part of the
module of `r` behind its last `/` be free of `[` and `\` (it may hold `*` and
`?`), and the part up to its last `/`, if there is one, lead back to the base
directory (as it always does for a module without `/`); let the basename start
with `<module>_` (the module is not empty, or the name starts with `_`); let
the text `.json` not occur in `filepath.Join(p, <basename>)`; let the directory
`p` have no entries before the write, or not exist; let `MaxAutoSaves` be a
64-bit `int` and the JSON text layer read back the manifest it prints. Then
after a successful `WriteAtRest(r, p)`, `ReadFiles(p, r.Module, "")` succeeds
with exactly the record `r`, body included. -/
theorem ReadFiles_WriteAtRest_round_trip (J : JsonText) (fs fs' : FS) (r : PullResponse)
    (p : GoString)
    (hp : p ≠ [])
    (hmeta : hasMeta (Clean p) = false)
    (hdir : Clean (p ++ '/' :: (Split r.Module).1) = Clean p)
    (hmod : simplePattern (Split r.Module).2)
    (hpre : r.Module ≠ [] ∨ r.Name.head? = some '_')
    (hjson : containsText ".json".toList (Join p (FileBasename r)) = false)
    (hempty : readDirNames fs p = [])
    (hint : -(2 : Int) ^ 63 ≤ r.MaxAutoSaves ∧ r.MaxAutoSaves < (2 : Int) ^ 63)
    (hJ : J.parse (J.render (toJSON { r with Body := [] })) = some (toJSON { r with Body := [] }))
    (hw : WriteAtRest J fs r p = (none, fs')) :
    ReadFiles J fs' p r.Module [] = .ok [r] := by
  obtain ⟨x, hx, hb, hlp, hlc, hcd, hfm, hfb, hent⟩ :=
    WriteAtRest_into_empty J fs fs' r p hp hdir hpre hempty hw
  exact ReadFiles_after_write J fs' r p x hp hmeta hdir hmod hjson hint hJ hx hb hlp hlc hcd
    hfm hfb hent

/-- C1 as amended, with the plain text layer: at the record of the spec's
scenario written to the empty directory `pages`; at a record with the module
`a*p?` written to the same directory under the name `./pages/`; at a record
with the module `./app1` written to the working directory `.`; and at the
record of the scenario written to a directory `new` that the write makes. -/
theorem ReadFiles_WriteAtRest_round_trip_witness :
    (WriteAtRest plainJson pagesFS homeRecord "pages".toList
        = (none, (WriteAtRest plainJson pagesFS homeRecord "pages".toList).2) ∧
      ReadFiles plainJson (WriteAtRest plainJson pagesFS homeRecord "pages".toList).2
        "pages".toList "app1".toList [] = .ok [homeRecord]) ∧
    (WriteAtRest plainJson pagesFS starRecord "./pages/".toList
        = (none, (WriteAtRest plainJson pagesFS starRecord "./pages/".toList).2) ∧
      ReadFiles plainJson (WriteAtRest plainJson pagesFS starRecord "./pages/".toList).2
        "./pages/".toList "a*p?".toList [] = .ok [starRecord]) ∧
    (WriteAtRest plainJson emptyFS dotSlashRecord ".".toList
        = (none, (WriteAtRest plainJson emptyFS dotSlashRecord ".".toList).2) ∧
      ReadFiles plainJson (WriteAtRest plainJson emptyFS dotSlashRecord ".".toList).2
        ".".toList "./app1".toList [] = .ok [dotSlashRecord]) ∧
    (WriteAtRest plainJson emptyFS homeRecord "new".toList
        = (none, (WriteAtRest plainJson emptyFS homeRecord "new".toList).2) ∧
      ReadFiles plainJson (WriteAtRest plainJson emptyFS homeRecord "new".toList).2
        "new".toList "app1".toList [] = .ok [homeRecord]) :=
  ⟨⟨by decide,
      ReadFiles_WriteAtRest_round_trip plainJson pagesFS _ homeRecord "pages".toList
        (by decide) (by decide) (by decide) (by decide)
        (Or.inl (by decide)) (by decide) (by decide) (by decide) (by decide) (by decide)⟩,
    ⟨by decide,
      ReadFiles_WriteAtRest_round_trip plainJson pagesFS _ starRecord "./pages/".toList
        (by decide) (by decide) (by decide) (by decide)
        (Or.inl (by decide)) (by decide) (by decide) (by decide) (by decide) (by decide)⟩,
    ⟨by decide,
      ReadFiles_WriteAtRest_round_trip plainJson emptyFS _ dotSlashRecord ".".toList
        (by decide) (by decide) (by decide) (by decide)
        (Or.inl (by decide)) (by decide) (by decide) (by decide) (by decide) (by decide)⟩,
    ⟨by decide,
      ReadFiles_WriteAtRest_round_trip plainJson emptyFS _ homeRecord "new".toList
        (by decide) (by decide) (by decide) (by decide)
        (Or.inl (by decide)) (by decide) (by decide) (by decide) (by decide) (by decide)⟩⟩

/-- C1 fails as stated; every write below succeeds, into a directory without
entries. A record without module is written to `pages` and `ReadFiles` with
its (empty) module succeeds with no record at all, because the pattern `_*`
does not match `Home.json`. A record whose module is `app[1` is written there
and `ReadFiles` with that module fails, because `app[1_*` is not a well-formed
pattern; with the module `ap\p` the pattern `ap\p_*` does not match the files
written and no record is returned. A record whose module is `../app1` is
written to `pages`, which puts its files next to `pages`, and `ReadFiles`
also returns the record `Old` that was there. With the empty base path the
files are written to the root and `ReadFiles` fails with the not-found error.
With the base paths `pa*es` and `pa?es` the glob also visits the directory
`pages` and `ReadFiles` returns the record `Old` of that directory as well;
with the base paths `pa[g]es` and `pa\ges` the glob does not visit the
directory written to and no record is returned. Last, the record with the
name `a.json` comes back without its body, because the reader derives the name
of the body file from the first `.json` in the path (the subject of C7). -/
theorem round_trip_counterexample :
    readDirNames pagesFS "pages".toList = [] ∧
    (WriteAtRest plainJson pagesFS unfiledRecord "pages".toList).1 = none ∧
    ReadFiles plainJson (WriteAtRest plainJson pagesFS unfiledRecord "pages".toList).2
      "pages".toList unfiledRecord.Module [] = .ok [] ∧
    ReadFiles plainJson (WriteAtRest plainJson pagesFS unfiledRecord "pages".toList).2
      "pages".toList unfiledRecord.Module [] ≠ .ok [unfiledRecord] ∧
    (WriteAtRest plainJson pagesFS bracketRecord "pages".toList).1 = none ∧
    ReadFiles plainJson (WriteAtRest plainJson pagesFS bracketRecord "pages".toList).2
      "pages".toList bracketRecord.Module [] = .error .badPattern ∧
    ReadFiles plainJson (WriteAtRest plainJson pagesFS bracketRecord "pages".toList).2
      "pages".toList bracketRecord.Module [] ≠ .ok [bracketRecord] ∧
    (WriteAtRest plainJson pagesFS escRecord "pages".toList).1 = none ∧
    ReadFiles plainJson (WriteAtRest plainJson pagesFS escRecord "pages".toList).2
      "pages".toList escRecord.Module [] = .ok [] ∧
    readDirNames besidePagesFS "pages".toList = [] ∧
    (WriteAtRest plainJson besidePagesFS upRecord "pages".toList).1 = none ∧
    ReadFiles plainJson (WriteAtRest plainJson besidePagesFS upRecord "pages".toList).2
      "pages".toList upRecord.Module [] = .ok [upRecord, oldRecord] ∧
    readDirNames emptyFS [] = [] ∧
    (WriteAtRest plainJson emptyFS homeRecord []).1 = none ∧
    ReadFiles plainJson (WriteAtRest plainJson emptyFS homeRecord []).2
      [] homeRecord.Module [] = .error .notExist ∧
    readDirNames otherPagesFS "pa*es".toList = [] ∧
    (WriteAtRest plainJson otherPagesFS homeRecord "pa*es".toList).1 = none ∧
    ReadFiles plainJson (WriteAtRest plainJson otherPagesFS homeRecord "pa*es".toList).2
      "pa*es".toList homeRecord.Module [] = .ok [homeRecord, oldRecord] ∧
    readDirNames otherPagesFS "pa?es".toList = [] ∧
    (WriteAtRest plainJson otherPagesFS homeRecord "pa?es".toList).1 = none ∧
    ReadFiles plainJson (WriteAtRest plainJson otherPagesFS homeRecord "pa?es".toList).2
      "pa?es".toList homeRecord.Module [] = .ok [homeRecord, oldRecord] ∧
    readDirNames emptyFS "pa[g]es".toList = [] ∧
    (WriteAtRest plainJson emptyFS homeRecord "pa[g]es".toList).1 = none ∧
    ReadFiles plainJson (WriteAtRest plainJson emptyFS homeRecord "pa[g]es".toList).2
      "pa[g]es".toList homeRecord.Module [] = .ok [] ∧
    readDirNames emptyFS "pa\\ges".toList = [] ∧
    (WriteAtRest plainJson emptyFS homeRecord "pa\\ges".toList).1 = none ∧
    ReadFiles plainJson (WriteAtRest plainJson emptyFS homeRecord "pa\\ges".toList).2
      "pa\\ges".toList homeRecord.Module [] = .ok [] ∧
    (WriteAtRest plainJson pagesFS dottedRecord "pages".toList).1 = none ∧
    ReadFiles plainJson (WriteAtRest plainJson pagesFS dottedRecord "pages".toList).2
      "pages".toList dottedRecord.Module [] = .ok [{ dottedRecord with Body := [] }] ∧
    dottedRecord.Body ≠ [] := by
  repeat' apply And.intro
  all_goals decide

/-! ### C2: the archive extractor -/

/-- C2: for an archive whose entries are either files of one recognized
category directory (`<category>/<file name>`, with readable content) or entries
whose first path segment is not a recognized category, `writeResultsToDisk`
with makers that succeed returns no error, passes to the file maker exactly the
recognized entries, in archive order, with path and content unchanged, and
calls the directory maker once, for the category, when there is a recognized
entry and not at all when there is none. -/
theorem writeResultsToDisk_one_category (fileMaker : GoString → GoString → Option Err)
    (directoryMaker : GoString → Option Err) (hfile : ∀ p c, fileMaker p c = none)
    (hdir : ∀ p, directoryMaker p = none) (cat : GoString) (hcat : cat ∈ categories)
    (archive : List ArchiveEntry)
    (h : ∀ e ∈ archive,
      (∃ file content, e.Name = cat ++ '/' :: file ∧ '/' ∉ file ∧ e.Body = .ok content) ∨
        firstSegment e.Name ∉ categories) :
    writeResultsToDisk [archive] fileMaker directoryMaker
      = (none, { directoriesCreated := if (recognized archive).length = 0 then [] else [cat],
                 filesCreated := (recognized archive).map (fun e => (e.Name, e.content)) }) := by
  unfold writeResultsToDisk extractStreams
  rw [extractEntries_one_category fileMaker directoryMaker hfile hdir cat hcat archive h _
    (Or.inl rfl)]
  simp [extractStreams]

/-- C2, at the archive of the test case "retrieve two data sources" with a
file outside the categories between the two entries. -/
theorem writeResultsToDisk_one_category_witness :
    writeResultsToDisk [twoDataSources] (fun _ _ => none) (fun _ => none)
      = (none, { directoriesCreated := ["datasources".toList],
                 filesCreated :=
                   [("datasources/mydatasource.json".toList,
                      "this is not even close to good JSON".toList),
                    ("datasources/mydatasource2.json".toList,
                      "this is not even close to good JSON2".toList)] }) :=
  (writeResultsToDisk_one_category (fun _ _ => none) (fun _ => none) (fun _ _ => rfl)
    (fun _ => rfl) "datasources".toList (by decide) twoDataSources (by
      intro e he
      simp only [twoDataSources, List.mem_cons, List.mem_singleton, List.not_mem_nil,
        or_false] at he
      rcases he with rfl | rfl | rfl
      · exact Or.inl ⟨"mydatasource.json".toList, _, by decide, by decide, rfl⟩
      · exact Or.inr (by decide)
      · exact Or.inl ⟨"mydatasource2.json".toList, _, by decide, by decide, rfl⟩)).trans
    (by decide)

/-! ### C3: the basename -/

/-- C3: `FileBasename` returns `module ++ "_" ++ name` when the module is not
empty, and the name alone when the module is empty. -/
theorem FileBasename_spec (page : PullResponse) :
    (page.Module ≠ [] → FileBasename page = page.Module ++ "_".toList ++ page.Name) ∧
    (page.Module = [] → FileBasename page = page.Name) := by
  constructor <;> intro h <;> simp [FileBasename, h]

/-- C3, at the record of the spec's scenario (module `app1`, name `Home`) and
at a record without module. -/
theorem FileBasename_spec_witness :
    FileBasename { PullResponse.zero with Module := "app1".toList, Name := "Home".toList }
        = "app1_Home".toList ∧
      FileBasename { PullResponse.zero with Name := "Home".toList } = "Home".toList :=
  ⟨(FileBasename_spec _).1 (by decide), (FileBasename_spec _).2 (by decide)⟩

/-! ### C4: the manifest -/

/-- C4: the manifest of a record holds no `body` member, whatever the body of
the record; its other members carry the values of the record
(`masterPageUniqueId` only when not empty, a nil `composerSettings` as `null`);
and whatever the outcome of `WriteAtRest`, the file `<path>/<basename>.json`
then holds the indented serialisation of the record with the body cleared, or
the call has failed and left that file as it was. -/
theorem WriteAtRest_manifest_without_body (J : JsonText) (fs : FS) (page : PullResponse)
    (path : GoString) :
    (∀ v, ("body".toList, v) ∉ toJSON { page with Body := [] }) ∧
    (toJSON { page with Body := [] }).lookup "name".toList = some (.str page.Name) ∧
    (toJSON { page with Body := [] }).lookup "uniqueId".toList = some (.str page.UniqueID) ∧
    (toJSON { page with Body := [] }).lookup "type".toList = some (.str page.Type_) ∧
    (toJSON { page with Body := [] }).lookup "module".toList = some (.str page.Module) ∧
    (toJSON { page with Body := [] }).lookup "maxAutoSaves".toList
      = some (.int page.MaxAutoSaves) ∧
    (toJSON { page with Body := [] }).lookup "masterPageUniqueId".toList
      = (if page.MasterPageUniqueID = [] then none else some (.str page.MasterPageUniqueID)) ∧
    (toJSON { page with Body := [] }).lookup "isMasterPage".toList
      = some (.bool page.IsMasterPage) ∧
    (toJSON { page with Body := [] }).lookup "composerSettings".toList
      = some (match page.ComposerSettings with | none => JVal.null | some s => JVal.str s) ∧
    (∀ err fs', WriteAtRest J fs page path = (err, fs') →
      (fs'.file (manifestPath path page)).map File.content
          = some (J.render (toJSON { page with Body := [] })) ∨
        (err ≠ none ∧ fs'.file (manifestPath path page) = fs.file (manifestPath path page))) := by
  refine ⟨?_, ?_, ?_, ?_, ?_, ?_, ?_, ?_, ?_, ?_⟩
  · intro v hv
    by_cases hm : page.MasterPageUniqueID = [] <;> simp [toJSON, hm] at hv
  · simp [toJSON, List.lookup]
  · simp [toJSON, List.lookup]
  · simp [toJSON, List.lookup]
  · simp [toJSON, List.lookup]
  · simp [toJSON, List.lookup]
  · by_cases hm : page.MasterPageUniqueID = [] <;> simp [toJSON, List.lookup, hm]
  · by_cases hm : page.MasterPageUniqueID = [] <;> simp [toJSON, List.lookup, hm]
  · cases hc : page.ComposerSettings <;> by_cases hm : page.MasterPageUniqueID = [] <;>
      simp [toJSON, List.lookup, hm, hc]
  · intro err fs' h
    exact WriteAtRest_manifest_file J fs fs' page path err h

/-- C4, at the record of the spec's scenario written to the empty directory
`pages`, with the plain text layer. -/
theorem WriteAtRest_manifest_without_body_witness :
    WriteAtRest plainJson pagesFS homeRecord "pages".toList
        = (none, (WriteAtRest plainJson pagesFS homeRecord "pages".toList).2) ∧
      ((WriteAtRest plainJson pagesFS homeRecord "pages".toList).2.file
          "pages/app1_Home.json".toList).map File.content
        = some (plainJson.render (toJSON { homeRecord with Body := [] })) :=
  ⟨by decide,
    ((WriteAtRest_manifest_without_body plainJson pagesFS homeRecord
        "pages".toList).2.2.2.2.2.2.2.2.2 none _ (by decide)).resolve_right
      (fun h => h.1 rfl)⟩

/-! ### C5: the body file -/

/-- C5: after a successful `WriteAtRest` the file `<path>/<basename>.xml` holds
exactly the original body of the record. -/
theorem WriteAtRest_body_verbatim (J : JsonText) (fs fs' : FS) (page : PullResponse)
    (path : GoString) (h : WriteAtRest J fs page path = (none, fs')) :
    (fs'.file (bodyPath path page)).map File.content = some page.Body := by
  obtain ⟨fs2, -, h2⟩ := WriteAtRest_ok J fs fs' page path h
  exact WriteFile_content fs2 fs' _ _ h2

/-- C5, at the record of the spec's scenario written to the empty directory
`pages`. -/
theorem WriteAtRest_body_verbatim_witness :
    WriteAtRest plainJson pagesFS homeRecord "pages".toList
        = (none, (WriteAtRest plainJson pagesFS homeRecord "pages".toList).2) ∧
      ((WriteAtRest plainJson pagesFS homeRecord "pages".toList).2.file
          "pages/app1_Home.xml".toList).map File.content = some "<xml/>".toList :=
  ⟨by decide, WriteAtRest_body_verbatim plainJson pagesFS _ homeRecord "pages".toList (by decide)⟩

/-! ### C6: a missing directory -/

/-- C6: when `dir` does not exist and no explicit pattern is given, `ReadFiles`
fails with the not-found error of `os.Stat`, whatever the module filter; it
returns no record list. -/
theorem ReadFiles_missing_dir (J : JsonText) (fs : FS) (dir moduleFilter : GoString)
    (h : fs.pathExists dir = false) :
    ReadFiles J fs dir moduleFilter [] = .error .notExist := by
  simp [ReadFiles, resolveFiles, Stat, h]

/-- C6, at a file system without the directory `pages`. -/
theorem ReadFiles_missing_dir_witness :
    ({ dirs := ["apps".toList], files := [] } : FS).pathExists "pages".toList = false ∧
      ReadFiles plainJson { dirs := ["apps".toList], files := [] } "pages".toList "app1".toList []
        = .error .notExist :=
  ⟨by decide, ReadFiles_missing_dir _ _ _ _ (by decide)⟩

/-! ### C7: the name of the body file -/

/-- C7: the reader does not replace the extension of the candidate. For the
candidate `pages/m_a.json.json`, which `WriteAtRest` produces for the record
with module `m` and name `a.json`, the body is read from
`pages/m_a.xml.json` and not from `pages/m_a.json.xml`, where the writer put
it, so the record comes back with an empty body; and for a candidate without
the text `.json` the body is read from the candidate itself. -/
theorem bodyFilename_replaces_first_occurrence :
    bodyFilename "pages/m_a.json.json".toList = "pages/m_a.xml.json".toList ∧
    withBodyExtension "pages/m_a.json.json".toList = "pages/m_a.json.xml".toList ∧
    manifestPath "pages".toList dottedRecord = "pages/m_a.json.json".toList ∧
    bodyPath "pages".toList dottedRecord = "pages/m_a.json.xml".toList ∧
    ReadFiles plainJson (WriteAtRest plainJson pagesFS dottedRecord "pages".toList).2
        "pages".toList "m".toList []
      = .ok [{ dottedRecord with Body := [] }] ∧
    bodyFilename "pages/m_notes.txt".toList = "pages/m_notes.txt".toList ∧
    withBodyExtension "pages/m_notes.txt".toList = "pages/m_notes.xml".toList := by
  decide

/-! ### C8: one record per manifest -/

/-- C8: `filterOutXmlFiles` returns the order-preserving sublist of the paths
whose extension is not `.xml`, and for every list of candidates the glob
resolves, `ReadFiles` returns one record per candidate of that sublist, in its
order, and none for a candidate with extension `.xml`. -/
theorem ReadFiles_one_record_per_manifest (J : JsonText) (fs : FS)
    (dir moduleFilter file : GoString) (files : List GoString)
    (h : resolveFiles fs dir moduleFilter file = .ok files) :
    filterOutXmlFiles files = files.filter (fun p => decide (Ext p ≠ ".xml".toList)) ∧
    ReadFiles J fs dir moduleFilter file
      = .ok ((files.filter (fun p => decide (Ext p ≠ ".xml".toList))).map (readDefinition J fs)) :=
  ⟨filterOutXmlFiles_eq_filter files, ReadFiles_of_resolved J fs dir moduleFilter file files h⟩

/-- C8, at the scenario of the spec: the glob resolves the manifest and the
body file, and one record is returned, for the manifest. -/
theorem ReadFiles_one_record_per_manifest_witness :
    resolveFiles scenarioFS "pages".toList "app1".toList []
        = .ok ["pages/app1_Home.json".toList, "pages/app1_Home.xml".toList] ∧
      ReadFiles plainJson scenarioFS "pages".toList "app1".toList []
        = .ok [{ PullResponse.zero with
                  Name := "Home".toList, Module := "app1".toList, Body := "<xml/>".toList }] :=
  ⟨by decide,
    (ReadFiles_one_record_per_manifest plainJson scenarioFS "pages".toList "app1".toList []
      ["pages/app1_Home.json".toList, "pages/app1_Home.xml".toList] (by decide)).2.trans
      (by decide)⟩

/-! ### C9: a body file that is missing -/

/-- C9: the reader does not return an empty body for every manifest candidate
whose paired body file is missing. The directory `pages` holds the one file
`m_notes.txt`, with the text `{"name":"notes"}`. The module filter `m`
resolves it as a candidate and it is not dropped as a body file; its paired
body file `pages/m_notes.xml` does not exist. The name the reader computes for
the body is the candidate itself, since the text `.json` does not occur in it,
so `ReadFiles` returns a record whose body is the text of the manifest, not the
empty string. -/
theorem ReadFiles_missing_body_reads_manifest :
    resolveFiles notesFS "pages".toList "m".toList [] = .ok ["pages/m_notes.txt".toList] ∧
    filterOutXmlFiles ["pages/m_notes.txt".toList] = ["pages/m_notes.txt".toList] ∧
    withBodyExtension "pages/m_notes.txt".toList = "pages/m_notes.xml".toList ∧
    notesFS.pathExists "pages/m_notes.xml".toList = false ∧
    ReadFile notesFS "pages/m_notes.xml".toList = .error .notExist ∧
    bodyFilename "pages/m_notes.txt".toList = "pages/m_notes.txt".toList ∧
    ReadFiles plainJson notesFS "pages".toList "m".toList []
      = .ok [{ PullResponse.zero with
                Name := "notes".toList, Body := "\x7b\"name\":\"notes\"\x7d".toList }] ∧
    ReadFiles plainJson notesFS "pages".toList "m".toList []
      ≠ .ok [{ PullResponse.zero with Name := "notes".toList, Body := [] }] := by
  decide

/-! ### C10: basenames that collide -/

/-- C10: `FileBasename` is not injective on (module, name): the records
(`a`, `b_c`) and (`a_b`, `c`), and the records (no module, `a_b`) and (`a`,
`b`), get the same basename, hence the same `.json` and `.xml` targets under
every base path; on records whose modules are not empty and hold no `_` it is
injective. -/
theorem FileBasename_not_injective :
    (FileBasename { PullResponse.zero with Module := "a".toList, Name := "b_c".toList }
        = FileBasename { PullResponse.zero with Module := "a_b".toList, Name := "c".toList }) ∧
    (FileBasename { PullResponse.zero with Module := [], Name := "a_b".toList }
        = FileBasename { PullResponse.zero with Module := "a".toList, Name := "b".toList }) ∧
    (∀ (r1 r2 : PullResponse) (path : GoString), FileBasename r1 = FileBasename r2 →
        manifestPath path r1 = manifestPath path r2 ∧ bodyPath path r1 = bodyPath path r2) ∧
    (∀ r1 r2 : PullResponse, r1.Module ≠ [] → r2.Module ≠ [] → '_' ∉ r1.Module →
        '_' ∉ r2.Module → FileBasename r1 = FileBasename r2 →
        r1.Module = r2.Module ∧ r1.Name = r2.Name) := by
  refine ⟨by decide, by decide, ?_, ?_⟩
  · intro r1 r2 path h
    simp [manifestPath, bodyPath, h]
  · intro r1 r2 h1 h2 u1 u2 h
    apply underscore_split_unique _ _ _ _ u1 u2
    simpa [FileBasename, h1, h2] using h

/-- C10, at two records with module `m` and name `x_y` that differ in the body. -/
theorem FileBasename_not_injective_witness :
    ({ PullResponse.zero with Module := "m".toList, Name := "x_y".toList }).Module
        = ({ PullResponse.zero with Module := "m".toList, Name := "x_y".toList, Body := "b".toList }).Module ∧
      ({ PullResponse.zero with Module := "m".toList, Name := "x_y".toList }).Name
        = ({ PullResponse.zero with Module := "m".toList, Name := "x_y".toList, Body := "b".toList }).Name :=
  FileBasename_not_injective.2.2.2 _ _ (by decide) (by decide) (by decide) (by decide) (by decide)

end Skuid
